import Mathlib

/-!
# keyevt: the key table, its config loader and the dispatch step

A shallow embedding of `keyevt.cpp`.

* `std::string` is the list of its characters (`Str`); `std::string::npos` is `none`.
* `std::map<unsigned, Event>` is an association list kept in ascending key order.
* `std::chrono::steady_clock` time points are integer counts of nanoseconds since the
  clock's epoch; a default-constructed time point is `0`.
* `unsigned` is a natural number reduced modulo `2 ^ 32`; `unsigned long` is 64 bits wide.
* One pass through the body of the `for(;;)` loop of `main`, after `try_get_event`
  has delivered an event, is the function `main_step`. The loop reads the steady clock
  twice (once for the rate-limit test, once for the stored time stamp); both readings
  are arguments.
-/

namespace Keyevt

/-! ## Strings -/

/-- Characters of a `std::string`. -/
abbrev Str := List Char

/-- The literal `" \t"` used by every search in the source. -/
def blanks : Str := [' ', '\t']

/-- Index of the first character of `s` that is not in `chars`
(`std::string::find_first_not_of`), `none` for `npos`. -/
def find_first_not_of : Str → Str → Option Nat
  | [], _ => none
  | c :: s, chars =>
    if chars.contains c then (find_first_not_of s chars).map (· + 1) else some 0

/-- Index of the first character of `s` that is in `chars`
(`std::string::find_first_of`), `none` for `npos`. -/
def find_first_of : Str → Str → Option Nat
  | [], _ => none
  | c :: s, chars =>
    if chars.contains c then some 0 else (find_first_of s chars).map (· + 1)

/-- Index of the last character of `s` that is not in `chars`
(`std::string::find_last_not_of`), `none` for `npos`. -/
def find_last_not_of : Str → Str → Option Nat
  | [], _ => none
  | c :: s, chars =>
    match find_last_not_of s chars with
    | some i => some (i + 1)
    | none => if chars.contains c then none else some 0

/-- Source function `strip`: both `substr` calls are guarded by `pos != npos`. -/
def strip (s : Str) : Str :=
  let s1 := match find_first_not_of s blanks with
    | some pos => s.drop pos
    | none => s
  match find_last_not_of s1 blanks with
  | some pos => s1.take (pos + 1)
  | none => s1

/-- Source function `get_and_remove_first_word`: the returned word, and the value left in
the reference argument `s`. -/
def get_and_remove_first_word (s : Str) : Str × Str :=
  match find_first_not_of s blanks with
  | none => ([], [])
  | some pos =>
    let s1 := if pos ≠ 0 then s.drop pos else s
    match find_first_of s1 blanks with
    | none => (s1, [])
    | some pos2 => (s1.take pos2, s1.drop pos2)

/-! ## The C library: `c_str` and `strtoul` -/

/-- The C string seen through `c_str()`: the characters before the first NUL. -/
def c_str (s : Str) : Str := s.takeWhile (fun c => c ≠ Char.ofNat 0)

/-- Largest `unsigned long` (LP64). -/
def ULONG_MAX : Nat := 2 ^ 64 - 1

/-- The C locale's `isspace`. -/
def isspace (c : Char) : Bool :=
  c = ' ' || c = '\t' || c = '\n' || c = Char.ofNat 11 || c = Char.ofNat 12 || c = '\r'

/-- Decimal digit test. -/
def isdigit (c : Char) : Bool := '0'.toNat ≤ c.toNat && c.toNat ≤ '9'.toNat

/-- Value of a run of decimal digits, most significant first, on top of `acc`. -/
def digits_value (ds : Str) (acc : Nat) : Nat :=
  ds.foldl (fun a c => a * 10 + (c.toNat - '0'.toNat)) acc

/-- Library function `strtoul(s, nullptr, 10)` as the C standard describes it: white space is
skipped, one sign is accepted, the longest run of decimal digits is converted; no digits
give `0`, a value that does not fit gives `ULONG_MAX`, and a minus sign negates the value
in `unsigned long`. -/
def strtoul (s : Str) : Nat :=
  let s1 := s.dropWhile isspace
  let signed : Bool × Str :=
    match s1 with
    | '-' :: t => (true, t)
    | '+' :: t => (false, t)
    | _ => (false, s1)
  let ds := signed.2.takeWhile isdigit
  if ds.isEmpty then 0
  else
    let v := digits_value ds 0
    if v > ULONG_MAX then ULONG_MAX
    else if signed.1 then (ULONG_MAX + 1 - v) % (ULONG_MAX + 1)
    else v

/-- Conversion of an `unsigned long` to `unsigned`. -/
def to_unsigned (n : Nat) : Nat := n % 2 ^ 32

/-! ## The key table -/

/-- Source struct `Event`. `time_last_executed` counts nanoseconds since the epoch of the
steady clock. -/
structure Event where
  ratelimit_seconds : Nat
  on_press : Bool
  pressed : Bool
  time_last_executed : Int
  exec : Str
deriving DecidableEq, Repr

/-- Source type `Map_key_event` (`std::map<unsigned, Event>`): pairs in ascending key order. -/
abbrev Map_key_event := List (Nat × Event)

/-- Member `std::map::find`: the entry stored under `key`, `none` for `cend()`. -/
def map_find : Map_key_event → Nat → Option Event
  | [], _ => none
  | (k, v) :: rest, key => if k = key then some v else map_find rest key

/-- Position of a new pair in the ascending key order. -/
def map_place : Map_key_event → Nat → Event → Map_key_event
  | [], key, e => [(key, e)]
  | (k, v) :: rest, key, e =>
    if key < k then (key, e) :: (k, v) :: rest else (k, v) :: map_place rest key e

/-- Member `std::map::insert`: a pair whose key is already present is not inserted and the
stored entry stays; otherwise the pair is put at its place in the key order. -/
def map_insert (m : Map_key_event) (key : Nat) (e : Event) : Map_key_event :=
  match map_find m key with
  | some _ => m
  | none => map_place m key e

/-- Assignment through the iterator returned by `find` (`k->second = ...`). -/
def map_assign : Map_key_event → Nat → Event → Map_key_event
  | [], _, _ => []
  | (k, v) :: rest, key, e =>
    if k = key then (k, e) :: rest else (k, v) :: map_assign rest key e

/-! ## The config loader -/

/-- Body of the `while (std::getline(in, s))` loop of `parse_config` for one line. -/
def parse_config_line (m : Map_key_event) (line : Str) : Map_key_event :=
  let s := strip line
  if s.isEmpty then m
  else if s.head? = some '#' then m
  else
    let r1 := get_and_remove_first_word s
    let key := to_unsigned (strtoul (c_str r1.1))
    let r2 := get_and_remove_first_word r1.2
    let ratelimit_seconds := to_unsigned (strtoul (c_str r2.1))
    let r3 := get_and_remove_first_word r2.2
    let on_press : Bool := strtoul (c_str r3.1) ≠ 0
    match find_first_not_of r3.2 blanks with
    | none => m
    | some start =>
      map_insert m key
        { ratelimit_seconds := ratelimit_seconds
          on_press := on_press
          pressed := false
          time_last_executed := 0
          exec := r3.2.drop start }

/-- Source function `parse_config`, over the lines that `std::getline` delivers, starting
from the table `m` (the global `map_key_event`, empty when `main` calls it). -/
def parse_config (lines : List Str) (m : Map_key_event) : Map_key_event :=
  lines.foldl parse_config_line m

/-! ## The dispatch step -/

/-- Fields of the kernel's `input_event` that the loop reads: `type` and `code` are 16-bit
unsigned, `value` is a signed 32-bit integer. -/
structure input_event where
  type : Nat
  code : Nat
  value : Int
deriving DecidableEq, Repr

/-- Event type `EV_KEY` of `linux/input.h`. -/
def EV_KEY : Nat := 1

/-- Nanoseconds in `std::chrono::seconds(n)`. -/
def seconds (n : Nat) : Int := (n : Int) * 1000000000

/-- What one firing of the loop produces: the key code, level word and command text written
to `std::cout`, and the string handed to the source function `exec`. -/
structure Dispatch where
  code : Nat
  word : Str
  shown : Str
  command : Str
deriving DecidableEq, Repr

/-- Conversion of the event value to `bool`. -/
def level (evt : input_event) : Bool := evt.value ≠ 0

/-- One pass through the loop body of `main` for a delivered event. `now_test` is the
steady-clock reading compared with the rate limit, `now_stamp` the reading stored as
`time_last_executed`. The result is the table afterwards and the dispatch, if any. -/
def main_step (m : Map_key_event) (evt : input_event) (now_test now_stamp : Int) :
    Map_key_event × Option Dispatch :=
  if evt.type ≠ EV_KEY then (m, none)
  else
    match map_find m evt.code with
    | none => (m, none)
    | some k =>
      if evt.value ≠ 0 ∧ k.pressed = true then (m, none)
      else if ¬ evt.value ≠ 0 ∧ ¬ k.pressed = true then (m, none)
      else
        let k1 : Event := { k with pressed := level evt }
        if k1.pressed ≠ k1.on_press then (map_assign m evt.code k1, none)
        else if now_test - k1.time_last_executed ≤ seconds k1.ratelimit_seconds then
          (map_assign m evt.code k1, none)
        else
          let k2 : Event := { k1 with time_last_executed := now_stamp }
          (map_assign m evt.code k2,
            some { code := evt.code
                   word := if k2.pressed then " pressed".toList else " released".toList
                   shown := k2.exec
                   command := k2.exec })

/-- The loop of `main` over a finite sequence of delivered events, each with its two clock
readings: the table afterwards and the dispatches in the order they were made. -/
def run (m : Map_key_event) : List (input_event × Int × Int) → Map_key_event × List Dispatch
  | [] => (m, [])
  | (evt, now_test, now_stamp) :: rest =>
    let r := main_step m evt now_test now_stamp
    let rr := run r.1 rest
    (rr.1, r.2.toList ++ rr.2)

/-! ## Auxiliary definitions for the statements and proofs -/

/-- The dispatch expected for entry `k` when an event of key `code` with level `lvl` fires:
the report names the key code, the level word and the entry's command, and the sink
receives the entry's command. -/
def fired (code : Nat) (k : Event) (lvl : Bool) : Dispatch :=
  { code := code
    word := if lvl then " pressed".toList else " released".toList
    shown := k.exec
    command := k.exec }

/-- A key-type event for key `code` with the given value. -/
def key_event (code : Nat) (value : Int) : input_event :=
  { type := EV_KEY, code := code, value := value }

/-- A one-entry table: key 64, fire on press, released, with the given rate limit and
last-dispatch time stamp. -/
def table64 (ratelimit : Nat) (stamp : Int) : Map_key_event :=
  [(64, { ratelimit_seconds := ratelimit
          on_press := true
          pressed := false
          time_last_executed := stamp
          exec := "echo hi".toList })]

/-- The pair that the loop body of `parse_config` hands to `insert` for one line, `none`
when the line reaches a `continue`. It is the body of `parse_config_line` without the
table. -/
def parse_entry (line : Str) : Option (Nat × Event) :=
  let s := strip line
  if s.isEmpty then none
  else if s.head? = some '#' then none
  else
    let r1 := get_and_remove_first_word s
    let r2 := get_and_remove_first_word r1.2
    let r3 := get_and_remove_first_word r2.2
    match find_first_not_of r3.2 blanks with
    | none => none
    | some start =>
      some (to_unsigned (strtoul (c_str r1.1)),
        { ratelimit_seconds := to_unsigned (strtoul (c_str r2.1))
          on_press := strtoul (c_str r3.1) ≠ 0
          pressed := false
          time_last_executed := 0
          exec := r3.2.drop start })

/-- Membership in the search set `" \t"`. -/
def is_blank (c : Char) : Bool := blanks.contains c

/-- Text without its trailing spaces and tabs. -/
def rtrim : Str → Str
  | [] => []
  | c :: s => if (rtrim s).isEmpty && is_blank c then [] else c :: rtrim s

/-- Text after its leading spaces and tabs and its first whitespace-delimited word have been
removed. -/
def drop_word (s : Str) : Str :=
  (s.dropWhile is_blank).dropWhile (fun c => !is_blank c)

/-- An unsigned decimal numeral of `n`: `z` leading zeros, then the decimal digits of `n`. -/
def numeral (z n : Nat) : Str := List.replicate z '0' ++ Nat.toDigits 10 n

/-- Last-dispatch time stamp stored for a key, if the key is in the table. -/
def stamp_of (m : Map_key_event) (key : Nat) : Option Int :=
  (map_find m key).map (fun k => k.time_last_executed)

/-- The rule part of an entry: rate limit, target edge and command. -/
def rule_of (k : Event) : Nat × Bool × Str := (k.ratelimit_seconds, k.on_press, k.exec)

/-- The clock readings of a sequence of delivered events in the order they are taken. -/
def readings : List (input_event × Int × Int) → List Int
  | [] => []
  | (_, now_test, now_stamp) :: rest => now_test :: now_stamp :: readings rest

/-- The key code and the recorded time (the value stored as `time_last_executed`) of each
dispatch the loop makes over a sequence of delivered events, in order. -/
def run_times (m : Map_key_event) : List (input_event × Int × Int) → List (Nat × Int)
  | [] => []
  | (evt, now_test, now_stamp) :: rest =>
    let r := main_step m evt now_test now_stamp
    (r.2.toList.map (fun d => (d.code, now_stamp))) ++ run_times r.1 rest

/-- Level of the most recent key-type event for key `c` in a sequence of delivered events,
`init` when there is none. -/
def last_level (c : Nat) (init : Bool) : List (input_event × Int × Int) → Bool
  | [] => init
  | e :: rest =>
    last_level c (if e.1.type = EV_KEY ∧ e.1.code = c then level e.1 else init) rest

/-- Text of a field after leading C white space and one optional sign. -/
def number_start (w : Str) : Str :=
  match w.dropWhile isspace with
  | '-' :: t => t
  | '+' :: t => t
  | t => t

/-- A field holds no number when, after leading C white space and one optional sign, it
does not go on with a decimal digit. -/
def lacks_number (w : Str) : Bool :=
  match number_start w with
  | [] => true
  | x :: _ => !isdigit x

/-- Events for key 64: press at 6 s, release at 7 s, press at 8 s, release at 9 s, press
at 12 s; each stamp reading is taken one nanosecond after the test reading. -/
def press_release_run : List (input_event × Int × Int) :=
  [(key_event 64 1, seconds 6, seconds 6 + 1), (key_event 64 0, seconds 7, seconds 7 + 1),
   (key_event 64 1, seconds 8, seconds 8 + 1), (key_event 64 0, seconds 9, seconds 9 + 1),
   (key_event 64 1, seconds 12, seconds 12 + 1)]

/-! ## Facts about the key table -/

theorem map_find_assign_same (m : Map_key_event) (key : Nat) (k e : Event)
    (h : map_find m key = some k) : map_find (map_assign m key e) key = some e := by
  induction m with
  | nil => simp [map_find] at h
  | cons p rest ih =>
    obtain ⟨k0, v0⟩ := p
    by_cases hk : k0 = key
    · simp [map_assign, map_find, hk]
    · simp only [map_find, hk, if_false] at h
      simp [map_assign, map_find, hk, ih h]

theorem map_find_assign_other (m : Map_key_event) (key other : Nat) (e : Event)
    (h : other ≠ key) : map_find (map_assign m key e) other = map_find m other := by
  induction m with
  | nil => simp [map_assign]
  | cons p rest ih =>
    obtain ⟨k0, v0⟩ := p
    by_cases hk : k0 = key
    · subst hk
      have : ¬ k0 = other := fun h2 => h h2.symm
      simp [map_assign, map_find, this]
    · by_cases ho : k0 = other
      · subst ho
        simp [map_assign, map_find, hk]
      · simp [map_assign, map_find, hk, ho, ih]

theorem map_find_place_same (m : Map_key_event) (key : Nat) (e : Event)
    (h : map_find m key = none) : map_find (map_place m key e) key = some e := by
  induction m with
  | nil => simp [map_place, map_find]
  | cons p rest ih =>
    obtain ⟨k0, v0⟩ := p
    by_cases hk : k0 = key
    · simp [map_find, hk] at h
    · simp only [map_find, hk, if_false] at h
      by_cases h1 : key < k0
      · simp [map_place, h1, map_find]
      · simp [map_place, h1, map_find, hk, ih h]

theorem map_find_place_other (m : Map_key_event) (key other : Nat) (e : Event)
    (h : other ≠ key) : map_find (map_place m key e) other = map_find m other := by
  have hne : ¬ key = other := fun h2 => h h2.symm
  induction m with
  | nil => simp [map_place, map_find, hne]
  | cons p rest ih =>
    obtain ⟨k0, v0⟩ := p
    by_cases h1 : key < k0
    · simp [map_place, h1, map_find, hne]
    · by_cases hk : k0 = other
      · subst hk
        simp [map_place, h1, map_find]
      · simp [map_place, h1, map_find, hk, ih]

theorem map_find_insert_present (m : Map_key_event) (key other : Nat) (k e : Event)
    (h : map_find m other = some k) : map_find (map_insert m key e) other = some k := by
  unfold map_insert
  cases hf : map_find m key with
  | some v => simpa using h
  | none =>
    have hne : other ≠ key := by
      intro ho
      rw [ho, hf] at h
      cases h
    simp only [map_find_place_other m key other e hne, h]

theorem map_find_insert_absent (m : Map_key_event) (key : Nat) (e : Event)
    (h : map_find m key = none) : map_find (map_insert m key e) key = some e := by
  unfold map_insert
  rw [h]
  exact map_find_place_same m key e h

theorem map_find_insert_cases (m : Map_key_event) (key other : Nat) (e k : Event)
    (h : map_find (map_insert m key e) other = some k) :
    map_find m other = some k ∨ (other = key ∧ k = e ∧ map_find m key = none) := by
  unfold map_insert at h
  cases hf : map_find m key with
  | some v =>
    rw [hf] at h
    exact Or.inl h
  | none =>
    rw [hf] at h
    by_cases ho : other = key
    · subst ho
      rw [map_find_place_same m other e hf] at h
      simp only [Option.some.injEq] at h
      exact Or.inr ⟨rfl, h.symm, rfl⟩
    · rw [map_find_place_other m key other e ho] at h
      exact Or.inl h

/-! ## Facts about the string functions -/

theorem contains_blanks (c : Char) : blanks.contains c = is_blank c := rfl

theorem find_first_not_of_none (s : Str) (h : find_first_not_of s blanks = none) :
    s.dropWhile is_blank = [] := by
  induction s with
  | nil => rfl
  | cons c t ih =>
    cases hc : is_blank c with
    | true =>
      simp only [find_first_not_of, contains_blanks, hc, if_true, Option.map_eq_none'] at h
      simp only [List.dropWhile_cons, hc, if_true]
      exact ih h
    | false =>
      simp only [find_first_not_of, contains_blanks, hc, Bool.false_eq_true, if_false] at h
      cases h

theorem find_first_not_of_some (s : Str) (i : Nat) (h : find_first_not_of s blanks = some i) :
    s.drop i = s.dropWhile is_blank ∧ s.dropWhile is_blank ≠ [] := by
  induction s generalizing i with
  | nil => simp [find_first_not_of] at h
  | cons c t ih =>
    cases hc : is_blank c with
    | true =>
      simp only [find_first_not_of, contains_blanks, hc, if_true, Option.map_eq_some'] at h
      obtain ⟨j, hj, rfl⟩ := h
      simp only [List.drop_succ_cons, List.dropWhile_cons, hc, if_true]
      exact ih j hj
    | false =>
      simp only [find_first_not_of, contains_blanks, hc, Bool.false_eq_true, if_false,
        Option.some.injEq] at h
      subst h
      simp [List.dropWhile_cons, hc]

theorem find_first_of_none (s : Str) (h : find_first_of s blanks = none) :
    s.takeWhile (fun c => !is_blank c) = s ∧ s.dropWhile (fun c => !is_blank c) = [] := by
  induction s with
  | nil => exact ⟨rfl, rfl⟩
  | cons c t ih =>
    cases hc : is_blank c with
    | true =>
      simp only [find_first_of, contains_blanks, hc, if_true] at h
      cases h
    | false =>
      simp only [find_first_of, contains_blanks, hc, Bool.false_eq_true, if_false,
        Option.map_eq_none'] at h
      simp [List.takeWhile_cons, List.dropWhile_cons, hc, ih h]

theorem find_first_of_some (s : Str) (i : Nat) (h : find_first_of s blanks = some i) :
    s.take i = s.takeWhile (fun c => !is_blank c) ∧
      s.drop i = s.dropWhile (fun c => !is_blank c) := by
  induction s generalizing i with
  | nil => simp [find_first_of] at h
  | cons c t ih =>
    cases hc : is_blank c with
    | true =>
      simp only [find_first_of, contains_blanks, hc, if_true, Option.some.injEq] at h
      subst h
      simp [List.takeWhile_cons, List.dropWhile_cons, hc]
    | false =>
      simp only [find_first_of, contains_blanks, hc, Bool.false_eq_true, if_false,
        Option.map_eq_some'] at h
      obtain ⟨j, hj, rfl⟩ := h
      simp [List.takeWhile_cons, List.dropWhile_cons, hc, ih j hj]

theorem find_last_not_of_rtrim (s : Str) :
    (find_last_not_of s blanks = none ∧ rtrim s = []) ∨
      ∃ i, find_last_not_of s blanks = some i ∧ s.take (i + 1) = rtrim s ∧ rtrim s ≠ [] := by
  induction s with
  | nil => exact Or.inl ⟨rfl, rfl⟩
  | cons c t ih =>
    rcases ih with ⟨h1, h2⟩ | ⟨i, h1, h2, h3⟩
    · cases hc : is_blank c with
      | true =>
        left
        simp only [find_last_not_of, rtrim, h1, h2, hc, contains_blanks]
        simp
      | false =>
        right
        refine ⟨0, ?_, ?_, ?_⟩
        · simp only [find_last_not_of, h1, hc, contains_blanks]
          simp
        · simp [rtrim, h2, hc]
        · simp [rtrim, h2, hc]
    · right
      refine ⟨i + 1, ?_, ?_, ?_⟩
      · simp [find_last_not_of, h1]
      · simp [rtrim, h3, h2]
      · simp [rtrim, h3]

theorem rtrim_eq_nil_iff (s : Str) : rtrim s = [] ↔ ∀ c ∈ s, is_blank c = true := by
  induction s with
  | nil => simp [rtrim]
  | cons c t ih =>
    cases hc : is_blank c with
    | true =>
      by_cases ht : rtrim t = []
      · simp only [rtrim, ht, hc, List.isEmpty_nil, Bool.and_self, if_true, List.mem_cons,
          forall_eq_or_imp, true_and, true_iff]
        exact ih.mp ht
      · have : ¬ ∀ c ∈ t, is_blank c = true := fun h => ht (ih.mpr h)
        simp [rtrim, ht, hc, this]
    | false => simp [rtrim, hc]

theorem dropWhile_blank_eq_nil_iff (s : Str) :
    s.dropWhile is_blank = [] ↔ ∀ c ∈ s, is_blank c = true :=
  List.dropWhile_eq_nil_iff

/-- The word and the rest left by `get_and_remove_first_word`, by `takeWhile`/`dropWhile`. -/
theorem get_and_remove_first_word_eq (s : Str) :
    get_and_remove_first_word s =
      ((s.dropWhile is_blank).takeWhile (fun c => !is_blank c), drop_word s) := by
  unfold get_and_remove_first_word drop_word
  cases h : find_first_not_of s blanks with
  | none => simp [find_first_not_of_none s h]
  | some pos =>
    have hd := (find_first_not_of_some s pos h).1
    have hs1 : (if pos ≠ 0 then s.drop pos else s) = s.dropWhile is_blank := by
      by_cases hp : pos = 0
      · subst hp
        simpa using hd
      · simp [hp, hd]
    simp only [hs1]
    cases h2 : find_first_of (s.dropWhile is_blank) blanks with
    | none =>
      have := find_first_of_none _ h2
      simp [this.1, this.2]
    | some pos2 =>
      have := find_first_of_some _ pos2 h2
      simp [this.1, this.2]

/-- The result of `strip`: a text of spaces and tabs only is returned as it is, any other
text loses its leading and trailing spaces and tabs. -/
theorem strip_eq (s : Str) :
    strip s = if s.dropWhile is_blank = [] then s else rtrim (s.dropWhile is_blank) := by
  unfold strip
  cases h : find_first_not_of s blanks with
  | none =>
    have hb := find_first_not_of_none s h
    simp only [hb, if_true]
    rcases find_last_not_of_rtrim s with ⟨h1, _⟩ | ⟨i, h1, _, h3⟩
    · simp [h1]
    · exact absurd ((rtrim_eq_nil_iff s).mpr ((dropWhile_blank_eq_nil_iff s).mp hb)) h3
  | some pos =>
    obtain ⟨hd, hne⟩ := find_first_not_of_some s pos h
    simp only [hd, hne, if_false]
    rcases find_last_not_of_rtrim (s.dropWhile is_blank) with ⟨_, h2⟩ | ⟨i, h1, h2, _⟩
    · have hall := (rtrim_eq_nil_iff _).mp h2
      have hnil := (dropWhile_blank_eq_nil_iff _).mpr hall
      rw [List.dropWhile_idempotent] at hnil
      exact absurd hnil hne
    · simp [h1, h2]

theorem is_blank_iff (c : Char) : is_blank c = true ↔ c = ' ' ∨ c = '\t' := by
  simp [is_blank, blanks]

theorem find_first_not_of_blank (s : Str) (h : ∀ c ∈ s, is_blank c = true) :
    find_first_not_of s blanks = none := by
  cases hf : find_first_not_of s blanks with
  | none => rfl
  | some i =>
    exact absurd ((dropWhile_blank_eq_nil_iff s).mpr h) (find_first_not_of_some s i hf).2

theorem dropWhile_blank_rtrim (t : Str) :
    (rtrim t).dropWhile is_blank = rtrim (t.dropWhile is_blank) := by
  induction t with
  | nil => rfl
  | cons c t ih =>
    cases hc : is_blank c with
    | true =>
      by_cases ht : rtrim t = []
      · simp [rtrim, ht, hc, List.dropWhile_cons, ← ih]
      · simp [rtrim, ht, hc, List.dropWhile_cons, ih]
    | false => simp [rtrim, hc, List.dropWhile_cons]

theorem dropWhile_word_rtrim (t : Str) :
    (rtrim t).dropWhile (fun c => !is_blank c) =
      rtrim (t.dropWhile (fun c => !is_blank c)) := by
  induction t with
  | nil => rfl
  | cons c t ih =>
    cases hc : is_blank c with
    | true =>
      by_cases ht : rtrim t = []
      · simp [rtrim, ht, hc, List.dropWhile_cons]
      · simp [rtrim, ht, hc, List.dropWhile_cons]
    | false => simp [rtrim, hc, List.dropWhile_cons, ih]

theorem drop_word_rtrim (t : Str) : drop_word (rtrim t) = rtrim (drop_word t) := by
  unfold drop_word
  rw [dropWhile_blank_rtrim, dropWhile_word_rtrim]

theorem drop_word_dropWhile (t : Str) : drop_word (t.dropWhile is_blank) = drop_word t := by
  unfold drop_word
  rw [List.dropWhile_idempotent]

/-- Removing three words commutes with `strip` as far as what is left being blank goes. -/
theorem drop_words_strip_blank (line : Str)
    (h : ∀ c ∈ drop_word (drop_word (drop_word line)), is_blank c = true) :
    ∀ c ∈ drop_word (drop_word (drop_word (strip line))), is_blank c = true := by
  rw [strip_eq]
  split_ifs with hb
  · exact h
  · rw [drop_word_rtrim, drop_word_rtrim, drop_word_rtrim, drop_word_dropWhile,
      (rtrim_eq_nil_iff _).mpr h]
    simp

/-! ## Facts about the C library functions -/

theorem digitChar_digit (d : Nat) (h : d < 10) :
    isdigit (Nat.digitChar d) = true ∧ (Nat.digitChar d).toNat - '0'.toNat = d := by
  interval_cases d <;> decide

theorem digits_value_append (a b : Str) (acc : Nat) :
    digits_value (a ++ b) acc = digits_value b (digits_value a acc) := by
  simp [digits_value, List.foldl_append]

theorem toDigitsCore_spec (fuel : Nat) : ∀ (n : Nat) (ds : Str), n < fuel →
    ∃ pre : Str, Nat.toDigitsCore 10 fuel n ds = pre ++ ds ∧ pre ≠ [] ∧
      (∀ c ∈ pre, isdigit c = true) ∧ ∀ acc, digits_value pre acc = acc * 10 ^ pre.length + n := by
  induction fuel with
  | zero => intro n ds h; omega
  | succ fuel ih =>
    intro n ds hn
    obtain ⟨hd1, hd2⟩ := digitChar_digit (n % 10) (Nat.mod_lt n (by decide))
    by_cases h0 : n / 10 = 0
    · refine ⟨[Nat.digitChar (n % 10)], ?_, by simp, ?_, ?_⟩
      · simp [Nat.toDigitsCore, h0]
      · simpa using hd1
      · intro acc
        simp only [digits_value, List.foldl_cons, List.foldl_nil, hd2, List.length_singleton,
          pow_one]
        omega
    · obtain ⟨pre, hp1, hp2, hp3, hp4⟩ :=
        ih (n / 10) (Nat.digitChar (n % 10) :: ds) (by omega)
      refine ⟨pre ++ [Nat.digitChar (n % 10)], ?_, by simp, ?_, ?_⟩
      · simp [Nat.toDigitsCore, h0, hp1]
      · intro c hc
        rcases List.mem_append.mp hc with hc | hc
        · exact hp3 c hc
        · simp only [List.mem_singleton] at hc
          rw [hc]; exact hd1
      · intro acc
        rw [digits_value_append, hp4]
        simp only [digits_value, List.foldl_cons, List.foldl_nil, hd2, List.length_append,
          List.length_singleton, pow_succ]
        have := Nat.div_add_mod n 10
        nlinarith [this]


theorem isdigit_bounds (c : Char) (h : isdigit c = true) : 48 ≤ c.toNat ∧ c.toNat ≤ 57 := by
  simpa [isdigit] using h

theorem isdigit_not_special (c : Char) (h : isdigit c = true) :
    is_blank c = false ∧ isspace c = false ∧ c ≠ '-' ∧ c ≠ '+' ∧ c ≠ '#' ∧ c ≠ Char.ofNat 0 := by
  have hb := isdigit_bounds c h
  refine ⟨?_, ?_, ?_, ?_, ?_, ?_⟩
  · cases hc : is_blank c with
    | false => rfl
    | true =>
      rcases (is_blank_iff c).mp hc with rfl | rfl <;> simp at hb
  · cases hc : isspace c with
    | false => rfl
    | true =>
      simp only [isspace, Bool.or_eq_true, decide_eq_true_eq] at hc
      rcases hc with ((((rfl | rfl) | rfl) | rfl) | rfl) | rfl <;> simp at hb
  all_goals (rintro rfl; simp at hb)

theorem digits_value_zeros (z : Nat) : digits_value (List.replicate z '0') 0 = 0 := by
  induction z with
  | zero => rfl
  | succ z ih =>
    simp only [List.replicate_succ, digits_value, List.foldl_cons] at ih ⊢
    simpa using ih

theorem numeral_spec (z n : Nat) :
    numeral z n ≠ [] ∧ (∀ c ∈ numeral z n, isdigit c = true) ∧
      digits_value (numeral z n) 0 = n := by
  obtain ⟨pre, h1, h2, h3, h4⟩ := toDigitsCore_spec (n + 1) n [] (Nat.lt_succ_self n)
  have hpre : Nat.toDigits 10 n = pre := by simpa [Nat.toDigits] using h1
  refine ⟨?_, ?_, ?_⟩
  · simp [numeral, hpre, h2]
  · intro c hc
    rcases List.mem_append.mp hc with hc | hc
    · rw [(List.mem_replicate.mp hc).2]; decide
    · rw [hpre] at hc; exact h3 c hc
  · rw [numeral, digits_value_append, digits_value_zeros, hpre, h4]
    simp

theorem strtoul_digits (ds : Str) (hne : ds ≠ []) (hd : ∀ c ∈ ds, isdigit c = true)
    (hv : digits_value ds 0 ≤ ULONG_MAX) : strtoul (c_str ds) = digits_value ds 0 := by
  have hc : c_str ds = ds := by
    unfold c_str
    rw [List.takeWhile_eq_self_iff]
    intro x hx
    simpa using (isdigit_not_special x (hd x hx)).2.2.2.2.2
  rw [hc]
  obtain ⟨d, t, rfl⟩ := List.exists_cons_of_ne_nil hne
  obtain ⟨_, h2, h3, h4, _, _⟩ := isdigit_not_special d (hd d (List.mem_cons_self d t))
  have htw : (d :: t).takeWhile isdigit = d :: t := List.takeWhile_eq_self_iff.mpr hd
  unfold strtoul
  simp only [List.dropWhile_cons, h2, Bool.false_eq_true, if_false]
  have hm : (match d :: t with
      | '-' :: t => (true, t)
      | '+' :: t => (false, t)
      | _ => (false, d :: t)) = (false, d :: t) := by
    split
    · rename_i heq; simp only [List.cons.injEq] at heq; exact absurd heq.1 h3
    · rename_i heq; simp only [List.cons.injEq] at heq; exact absurd heq.1 h4
    · rfl
  rw [hm]
  simp only [htw, List.isEmpty_cons, Bool.false_eq_true, if_false]
  rw [if_neg (by omega)]

/-! ## Facts about the config loader -/

theorem parse_config_line_eq (m : Map_key_event) (line : Str) :
    parse_config_line m line =
      match parse_entry line with
      | none => m
      | some p => map_insert m p.1 p.2 := by
  unfold parse_config_line parse_entry
  simp only []
  split_ifs
  · rfl
  · rfl
  · split <;> rfl

theorem parse_entry_fresh (line : Str) (p : Nat × Event) (h : parse_entry line = some p) :
    p.2.time_last_executed = 0 ∧ p.2.pressed = false := by
  unfold parse_entry at h
  simp only [] at h
  split_ifs at h
  split at h
  · cases h
  · simp only [Option.some.injEq] at h
    subst h
    exact ⟨rfl, rfl⟩

theorem parse_config_line_fresh (m : Map_key_event) (line : Str)
    (hm : ∀ key k, map_find m key = some k → k.time_last_executed = 0 ∧ k.pressed = false) :
    ∀ key k, map_find (parse_config_line m line) key = some k →
      k.time_last_executed = 0 ∧ k.pressed = false := by
  intro key k h
  rw [parse_config_line_eq] at h
  cases hp : parse_entry line with
  | none =>
    rw [hp] at h
    exact hm key k h
  | some p =>
    rw [hp] at h
    rcases map_find_insert_cases m p.1 key p.2 k h with h1 | ⟨_, h2, _⟩
    · exact hm key k h1
    · rw [h2]
      exact parse_entry_fresh line p hp

theorem parse_config_fresh (lines : List Str) (m : Map_key_event)
    (hm : ∀ key k, map_find m key = some k → k.time_last_executed = 0 ∧ k.pressed = false) :
    ∀ key k, map_find (parse_config lines m) key = some k →
      k.time_last_executed = 0 ∧ k.pressed = false := by
  induction lines generalizing m with
  | nil => simpa [parse_config] using hm
  | cons l rest ih =>
    have := ih (parse_config_line m l) (parse_config_line_fresh m l hm)
    simpa [parse_config] using this

theorem parse_entry_none_of_blank_rest (line : Str)
    (h : ∀ c ∈ drop_word (drop_word (drop_word line)), is_blank c = true) :
    parse_entry line = none := by
  have hs := drop_words_strip_blank line h
  unfold parse_entry
  simp only [get_and_remove_first_word_eq]
  split_ifs
  · rfl
  · rfl
  · rw [find_first_not_of_blank _ hs]

theorem rtrim_append_blank (a b : Str) (hb : ∀ c ∈ b, is_blank c = true) :
    rtrim (a ++ b) = rtrim a := by
  induction a with
  | nil => simpa [rtrim] using (rtrim_eq_nil_iff b).mpr hb
  | cons x a ih => simp [rtrim, ih]

theorem rtrim_concat (a : Str) (z : Char) (hz : is_blank z = false) :
    rtrim (a ++ [z]) = a ++ [z] := by
  induction a with
  | nil => simp [rtrim, hz]
  | cons x a ih => simp [rtrim, ih]

theorem rtrim_command (a c b : Str) (hne : c ≠ [])
    (hl : ∀ x, c.getLast? = some x → is_blank x = false)
    (hb : ∀ x ∈ b, is_blank x = true) : rtrim (a ++ (c ++ b)) = a ++ c := by
  obtain ⟨z, hz⟩ : ∃ z, c.getLast? = some z := by
    cases h : c.getLast? with
    | none => exact absurd (List.getLast?_eq_none_iff.mp h) hne
    | some z => exact ⟨z, rfl⟩
  obtain ⟨ys, rfl⟩ := List.getLast?_eq_some_iff.mp hz
  rw [← List.append_assoc, rtrim_append_blank _ b hb, ← List.append_assoc,
    rtrim_concat _ z (hl z hz)]

theorem dropWhile_blank_run (b w : Str) (hb : ∀ x ∈ b, is_blank x = true)
    (hw : ∀ x, w.head? = some x → is_blank x = false) :
    (b ++ w).dropWhile is_blank = w := by
  rw [List.dropWhile_append_of_pos hb]
  cases w with
  | nil => rfl
  | cons y t => simp [List.dropWhile_cons, hw y rfl]

theorem first_word_of_fields (b w b1 rest : Str) (hb : ∀ x ∈ b, is_blank x = true)
    (hw : ∀ x ∈ w, is_blank x = false) (hne : w ≠ [])
    (hb1 : ∀ x ∈ b1, is_blank x = true) (hne1 : b1 ≠ []) :
    get_and_remove_first_word (b ++ (w ++ (b1 ++ rest))) = (w, b1 ++ rest) := by
  obtain ⟨y, t, rfl⟩ := List.exists_cons_of_ne_nil hne
  obtain ⟨y1, t1, rfl⟩ := List.exists_cons_of_ne_nil hne1
  have hy1 : is_blank y1 = true := hb1 y1 (List.mem_cons_self y1 t1)
  have hd : (b ++ (y :: t ++ (y1 :: t1 ++ rest))).dropWhile is_blank =
      y :: t ++ (y1 :: t1 ++ rest) :=
    dropWhile_blank_run b _ hb (fun x hx => by
      simp only [List.cons_append, List.head?_cons, Option.some.injEq] at hx
      exact hx ▸ hw y (List.mem_cons_self y t))
  have hw2 : ∀ x ∈ y :: t, (fun c => !is_blank c) x = true := fun x hx => by simp [hw x hx]
  rw [get_and_remove_first_word_eq, drop_word, hd, List.takeWhile_append_of_pos hw2,
    List.dropWhile_append_of_pos hw2]
  simp [List.takeWhile_cons, List.dropWhile_cons, hy1]

/-- The entry read from a line of three words and a command, whatever the words are. -/
theorem parse_entry_fields (b0 w1 b1 w2 b2 w3 b3 c b4 : Str)
    (hb0 : ∀ x ∈ b0, is_blank x = true) (hb1 : ∀ x ∈ b1, is_blank x = true)
    (hb2 : ∀ x ∈ b2, is_blank x = true) (hb3 : ∀ x ∈ b3, is_blank x = true)
    (hb4 : ∀ x ∈ b4, is_blank x = true)
    (hn1 : b1 ≠ []) (hn2 : b2 ≠ []) (hn3 : b3 ≠ [])
    (hw1 : ∀ x ∈ w1, is_blank x = false) (hw2 : ∀ x ∈ w2, is_blank x = false)
    (hw3 : ∀ x ∈ w3, is_blank x = false)
    (he1 : w1 ≠ []) (he2 : w2 ≠ []) (he3 : w3 ≠ []) (hhash : w1.head? ≠ some '#')
    (hc : c ≠ []) (hcf : ∀ x, c.head? = some x → is_blank x = false)
    (hcl : ∀ x, c.getLast? = some x → is_blank x = false) :
    parse_entry (b0 ++ (w1 ++ (b1 ++ (w2 ++ (b2 ++ (w3 ++ (b3 ++ (c ++ b4)))))))) =
      some (to_unsigned (strtoul (c_str w1)),
        { ratelimit_seconds := to_unsigned (strtoul (c_str w2))
          on_press := strtoul (c_str w3) ≠ 0
          pressed := false
          time_last_executed := 0
          exec := c }) := by
  obtain ⟨y, t, rfl⟩ := List.exists_cons_of_ne_nil he1
  have hy : is_blank y = false := hw1 y (List.mem_cons_self y t)
  have hd : (b0 ++ (y :: t ++ (b1 ++ (w2 ++ (b2 ++ (w3 ++ (b3 ++ (c ++ b4)))))))).dropWhile
      is_blank = y :: t ++ (b1 ++ (w2 ++ (b2 ++ (w3 ++ (b3 ++ (c ++ b4)))))) :=
    dropWhile_blank_run b0 _ hb0 (fun x hx => by
      simp only [List.cons_append, List.head?_cons, Option.some.injEq] at hx
      exact hx ▸ hy)
  have hs : strip (b0 ++ (y :: t ++ (b1 ++ (w2 ++ (b2 ++ (w3 ++ (b3 ++ (c ++ b4)))))))) =
      y :: t ++ (b1 ++ (w2 ++ (b2 ++ (w3 ++ (b3 ++ c))))) := by
    rw [strip_eq, hd, if_neg (by simp)]
    have hre : y :: t ++ (b1 ++ (w2 ++ (b2 ++ (w3 ++ (b3 ++ (c ++ b4)))))) =
        (y :: t ++ (b1 ++ (w2 ++ (b2 ++ (w3 ++ b3))))) ++ (c ++ b4) := by
      simp only [List.append_assoc]
    rw [hre, rtrim_command _ c b4 hc hcl hb4]
    simp only [List.append_assoc]
  have h1 := first_word_of_fields [] (y :: t) b1 (w2 ++ (b2 ++ (w3 ++ (b3 ++ c))))
    (by simp) hw1 (by simp) hb1 hn1
  have h2 := first_word_of_fields b1 w2 b2 (w3 ++ (b3 ++ c)) hb1 hw2 he2 hb2 hn2
  have h3 := first_word_of_fields b2 w3 b3 c hb2 hw3 he3 hb3 hn3
  rw [List.nil_append] at h1
  have hdc : (b3 ++ c).dropWhile is_blank = c := dropWhile_blank_run b3 c hb3 hcf
  have hhead : ¬ (y = '#') := fun h => hhash (by simp [h])
  unfold parse_entry
  simp only [hs, h1, h2, h3]
  rw [if_neg (by simp), if_neg (by simpa using hhead)]
  cases hf : find_first_not_of (b3 ++ c) blanks with
  | none => exact absurd (hdc ▸ find_first_not_of_none _ hf) hc
  | some i =>
    have := (find_first_not_of_some _ i hf).1
    simp only [this, hdc]

theorem parse_config_keeps (lines : List Str) (m : Map_key_event) (key : Nat) (k : Event)
    (h : map_find m key = some k) : map_find (parse_config lines m) key = some k := by
  induction lines generalizing m with
  | nil => simpa [parse_config] using h
  | cons l rest ih =>
    have hl : map_find (parse_config_line m l) key = some k := by
      rw [parse_config_line_eq]
      cases parse_entry l with
      | none => exact h
      | some p => exact map_find_insert_present m p.1 key k p.2 h
    simpa [parse_config] using ih (parse_config_line m l) hl

theorem parse_config_append (pre rest : List Str) (m : Map_key_event) :
    parse_config (pre ++ rest) m = parse_config rest (parse_config pre m) := by
  simp [parse_config, List.foldl_append]

theorem drop_word_suffix (s : Str) : drop_word s <:+ s :=
  (List.dropWhile_suffix _).trans (List.dropWhile_suffix _)

theorem rtrim_cons_text (c : Char) (t : Str) (hc : is_blank c = false) :
    rtrim (c :: t) = c :: rtrim t := by
  simp [rtrim, hc]

theorem suffix_getLast_eq (a b : Str) (h : a <:+ b) (ha : a ≠ []) :
    a.getLast? = b.getLast? := by
  obtain ⟨t, rfl⟩ := h
  rw [List.getLast?_append]
  cases hl : a.getLast? with
  | none => exact absurd (List.getLast?_eq_none_iff.mp hl) ha
  | some x => rfl

theorem rtrim_last (t : Str) : ∀ x, (rtrim t).getLast? = some x → is_blank x = false := by
  induction t with
  | nil => intro x hx; simp [rtrim] at hx
  | cons c t ih =>
    intro x hx
    by_cases ht : rtrim t = []
    · cases hc : is_blank c with
      | true => simp [rtrim, ht, hc] at hx
      | false =>
        simp only [rtrim, ht, hc, List.isEmpty_nil, Bool.and_false, Bool.false_eq_true,
          if_false, List.getLast?_singleton, Option.some.injEq] at hx
        rw [← hx]; exact hc
    · have hr : rtrim (c :: t) = c :: rtrim t := by simp [rtrim, ht]
      rw [hr, ← suffix_getLast_eq (rtrim t) (c :: rtrim t) (List.suffix_cons c _) ht] at hx
      exact ih x hx

/-- The result of `strip` on a text that has a character other than space and tab: its
first and last characters are neither space nor tab. -/
theorem strip_of_text (s : Str) (h : s.dropWhile is_blank ≠ []) :
    strip s = rtrim (s.dropWhile is_blank) ∧ strip s ≠ [] ∧
      (∀ x, (strip s).head? = some x → is_blank x = false) ∧
      (∀ x, (strip s).getLast? = some x → is_blank x = false) := by
  have hs : strip s = rtrim (s.dropWhile is_blank) := by rw [strip_eq, if_neg h]
  obtain ⟨y, t, hyt⟩ := List.exists_cons_of_ne_nil h
  have hy : is_blank y = false := by
    have := List.head?_dropWhile_not is_blank s
    rw [hyt] at this
    simpa using this
  rw [hs, hyt, rtrim_cons_text y t hy]
  refine ⟨rfl, by simp, ?_, ?_⟩
  · intro x hx
    simp only [List.head?_cons, Option.some.injEq] at hx
    rw [← hx]; exact hy
  · intro x hx
    rw [← rtrim_cons_text y t hy] at hx
    exact rtrim_last _ x hx

theorem parse_entry_shape (line : Str) (p : Nat × Event) (h : parse_entry line = some p) :
    p.2.exec ≠ [] ∧ (∀ x, p.2.exec.head? = some x → is_blank x = false) ∧
      (∀ x, p.2.exec.getLast? = some x → is_blank x = false) ∧ p.2.pressed = false := by
  unfold parse_entry at h
  simp only [get_and_remove_first_word_eq] at h
  split_ifs at h
  split at h
  · cases h
  · rename_i start hf
    simp only [Option.some.injEq] at h
    subst h
    obtain ⟨hd, hne⟩ := find_first_not_of_some _ start hf
    simp only [hd]
    have hsuf : (drop_word (drop_word (drop_word (strip line)))).dropWhile is_blank <:+
        strip line :=
      (List.dropWhile_suffix _).trans ((drop_word_suffix _).trans
        ((drop_word_suffix _).trans (drop_word_suffix _)))
    have htext : line.dropWhile is_blank ≠ [] := by
      intro hb
      have hall := (dropWhile_blank_eq_nil_iff line).mp hb
      have hsl : strip line = line := by rw [strip_eq, if_pos hb]
      rw [hsl] at hsuf
      obtain ⟨y, t, hyt⟩ := List.exists_cons_of_ne_nil hne
      have hy : is_blank y = false := by
        have := List.head?_dropWhile_not is_blank
          (drop_word (drop_word (drop_word (strip line))))
        rw [hyt] at this
        simpa using this
      have hmem : y ∈ line := hsuf.subset (by rw [hsl] at hyt; rw [hyt]; exact List.mem_cons_self _ _)
      rw [hall y hmem] at hy
      cases hy
    obtain ⟨_, _, _, hlast⟩ := strip_of_text line htext
    refine ⟨hne, ?_, ?_, trivial⟩
    · intro x hx
      have := List.head?_dropWhile_not is_blank
        (drop_word (drop_word (drop_word (strip line))))
      rw [hx] at this
      simpa using this
    · intro x hx
      rw [suffix_getLast_eq _ _ hsuf hne] at hx
      exact hlast x hx

theorem mem_map_place (m : Map_key_event) (key : Nat) (e : Event) (p : Nat × Event)
    (h : p ∈ map_place m key e) : p ∈ m ∨ p = (key, e) := by
  induction m with
  | nil =>
    simp only [map_place, List.mem_singleton] at h
    exact Or.inr h
  | cons q rest ih =>
    obtain ⟨k0, v0⟩ := q
    by_cases h1 : key < k0
    · simp only [map_place, h1, if_true, List.mem_cons] at h
      rcases h with h | h | h
      · exact Or.inr h
      · exact Or.inl (by simp [h])
      · exact Or.inl (by simp [h])
    · simp only [map_place, h1, if_false, List.mem_cons] at h
      rcases h with h | h
      · exact Or.inl (by simp [h])
      · rcases ih h with h | h
        · exact Or.inl (by simp [h])
        · exact Or.inr h

theorem mem_map_insert (m : Map_key_event) (key : Nat) (e : Event) (p : Nat × Event)
    (h : p ∈ map_insert m key e) : p ∈ m ∨ p = (key, e) := by
  unfold map_insert at h
  split at h
  · exact Or.inl h
  · exact mem_map_place m key e p h

theorem parse_config_shape (lines : List Str) (m : Map_key_event)
    (hm : ∀ p ∈ m, p.2.exec ≠ [] ∧ (∀ x, p.2.exec.head? = some x → is_blank x = false) ∧
      (∀ x, p.2.exec.getLast? = some x → is_blank x = false) ∧ p.2.pressed = false) :
    ∀ p ∈ parse_config lines m,
      p.2.exec ≠ [] ∧ (∀ x, p.2.exec.head? = some x → is_blank x = false) ∧
      (∀ x, p.2.exec.getLast? = some x → is_blank x = false) ∧ p.2.pressed = false := by
  induction lines generalizing m with
  | nil => simpa [parse_config] using hm
  | cons l rest ih =>
    have hstep : parse_config (l :: rest) m = parse_config rest (parse_config_line m l) := rfl
    rw [hstep]
    apply ih
    intro p hp
    rw [parse_config_line_eq] at hp
    cases hpe : parse_entry l with
    | none =>
      rw [hpe] at hp
      exact hm p hp
    | some q =>
      rw [hpe] at hp
      rcases mem_map_insert m q.1 q.2 p hp with h | h
      · exact hm p h
      · rw [h]
        exact parse_entry_shape l q hpe

theorem not_blank_iff (x : Char) : is_blank x = false ↔ x ≠ ' ' ∧ x ≠ '\t' := by
  rw [← not_iff_not]
  simp only [Bool.not_eq_false, is_blank_iff, not_and_or, not_not]

theorem dropWhile_isspace_c_str (w : Str) :
    (c_str w).dropWhile isspace = c_str (w.dropWhile isspace) := by
  induction w with
  | nil => rfl
  | cons c t ih =>
    unfold c_str at ih ⊢
    cases hs : isspace c with
    | true =>
      have hq : decide (c ≠ Char.ofNat 0) = true := by
        rw [decide_eq_true_eq]
        rintro rfl
        revert hs
        decide
      simp only [List.takeWhile_cons, hq, if_true, List.dropWhile_cons, hs]
      exact ih
    | false =>
      by_cases hq : c = Char.ofNat 0
      · subst hq
        simp only [List.dropWhile_cons, hs, Bool.false_eq_true, if_false]
        simp [List.takeWhile_cons]
      · simp [List.takeWhile_cons, List.dropWhile_cons, hs, hq]

theorem no_digits_of_head (l : Str) (h : ∀ x, l.head? = some x → isdigit x = false) :
    (c_str l).takeWhile isdigit = [] := by
  cases l with
  | nil => rfl
  | cons x t =>
    have hx := h x rfl
    unfold c_str
    by_cases hq : x = Char.ofNat 0
    · simp [List.takeWhile_cons, hq]
    · simp [List.takeWhile_cons, hq, hx]

theorem c_str_cons (x : Char) (t : Str) (hx : x ≠ Char.ofNat 0) :
    c_str (x :: t) = x :: c_str t := by
  simp [c_str, List.takeWhile_cons, hx]

theorem strtoul_lacks_number (w : Str) (h : lacks_number w = true) :
    strtoul (c_str w) = 0 := by
  unfold strtoul
  simp only [dropWhile_isspace_c_str]
  unfold lacks_number number_start at h
  generalize w.dropWhile isspace = l at h ⊢
  have hhead : ∀ (t : Str), (match t with | [] => true | x :: _ => !isdigit x) = true →
      ∀ x, t.head? = some x → isdigit x = false := by
    intro t ht x hx
    cases t with
    | nil => cases hx
    | cons y t' =>
      simp only [List.head?_cons, Option.some.injEq] at hx
      subst hx
      simpa using ht
  cases l with
  | nil => rfl
  | cons x t =>
    by_cases hm : x = '-'
    · subst hm
      rw [c_str_cons _ _ (by decide)]
      simp only [no_digits_of_head t (hhead t h), List.isEmpty_nil, if_true]
    · by_cases hp : x = '+'
      · subst hp
        rw [c_str_cons _ _ (by decide)]
        simp only [no_digits_of_head t (hhead t h), List.isEmpty_nil, if_true]
      · have hx : (match x :: t with
            | '-' :: t => t
            | '+' :: t => t
            | t => t) = x :: t := by
          split
          · rename_i heq; simp only [List.cons.injEq] at heq; exact absurd heq.1 hm
          · rename_i heq; simp only [List.cons.injEq] at heq; exact absurd heq.1 hp
          · rfl
        rw [hx] at h
        have hd := no_digits_of_head (x :: t) (hhead _ h)
        by_cases hq : x = Char.ofNat 0
        · subst hq
          rfl
        · rw [c_str_cons _ _ hq] at hd ⊢
          have hsig : (match x :: c_str t with
              | '-' :: t => (true, t)
              | '+' :: t => (false, t)
              | _ => (false, x :: c_str t)) = (false, x :: c_str t) := by
            split
            · rename_i heq; simp only [List.cons.injEq] at heq; exact absurd heq.1 hm
            · rename_i heq; simp only [List.cons.injEq] at heq; exact absurd heq.1 hp
            · rfl
          rw [hsig]
          have hd2 : List.takeWhile isdigit (x :: c_str t) = [] := by
            have := hhead (x :: t) h x rfl
            simp [List.takeWhile_cons, this]
          simp only [hd2, List.isEmpty_nil, if_true]

/-! ## Facts about the dispatch step -/

theorem main_step_not_key (m : Map_key_event) (evt : input_event) (now_test now_stamp : Int)
    (h : evt.type ≠ EV_KEY) : main_step m evt now_test now_stamp = (m, none) := by
  simp [main_step, h]

theorem main_step_absent (m : Map_key_event) (evt : input_event) (now_test now_stamp : Int)
    (h : map_find m evt.code = none) : main_step m evt now_test now_stamp = (m, none) := by
  unfold main_step
  split
  · rfl
  · simp [h]

theorem main_step_same_level (m : Map_key_event) (evt : input_event) (k : Event)
    (now_test now_stamp : Int) (hk : map_find m evt.code = some k)
    (hsame : level evt = k.pressed) : main_step m evt now_test now_stamp = (m, none) := by
  unfold main_step
  split
  · rfl
  · simp only [hk]
    by_cases hv : evt.value = 0
    · have hp : k.pressed = false := by rw [← hsame]; simp [level, hv]
      simp [hv, hp]
    · have hp : k.pressed = true := by rw [← hsame]; simp [level, hv]
      simp [hv, hp]

theorem main_step_edge (m : Map_key_event) (evt : input_event) (k : Event)
    (now_test now_stamp : Int) (hty : evt.type = EV_KEY)
    (hk : map_find m evt.code = some k) (hchg : level evt ≠ k.pressed) :
    main_step m evt now_test now_stamp =
      if level evt ≠ k.on_press then
        (map_assign m evt.code { k with pressed := level evt }, none)
      else if now_test - k.time_last_executed ≤ seconds k.ratelimit_seconds then
        (map_assign m evt.code { k with pressed := level evt }, none)
      else
        (map_assign m evt.code { k with pressed := level evt, time_last_executed := now_stamp },
          some (fired evt.code k (level evt))) := by
  unfold main_step
  simp only [hty, ne_eq, not_true_eq_false, if_false, hk]
  by_cases hv : evt.value = 0
  · have hl : level evt = false := by simp [level, hv]
    have hp : k.pressed = true := by
      cases hkp : k.pressed with
      | true => rfl
      | false => rw [hl, hkp] at hchg; exact absurd rfl hchg
    simp [hv, hp, hl, fired]
  · have hl : level evt = true := by simp [level, hv]
    have hp : k.pressed = false := by
      cases hkp : k.pressed with
      | false => rfl
      | true => rw [hl, hkp] at hchg; exact absurd rfl hchg
    simp [hv, hp, hl, fired]

theorem main_step_stamp_kept (m : Map_key_event) (evt : input_event) (now_test now_stamp : Int)
    (c : Nat) (h : ∀ d, (main_step m evt now_test now_stamp).2 = some d → d.code ≠ c) :
    stamp_of (main_step m evt now_test now_stamp).1 c = stamp_of m c := by
  by_cases hty : evt.type = EV_KEY
  · cases hk : map_find m evt.code with
    | none => rw [main_step_absent m evt now_test now_stamp hk]
    | some k =>
      by_cases hchg : level evt = k.pressed
      · rw [main_step_same_level m evt k now_test now_stamp hk hchg]
      · by_cases hc : c = evt.code
        · subst hc
          rw [main_step_edge m evt k now_test now_stamp hty hk hchg] at h ⊢
          by_cases hoff : level evt ≠ k.on_press
          · rw [if_pos hoff]
            simp [stamp_of, map_find_assign_same m evt.code k _ hk, hk]
          · rw [if_neg hoff] at h ⊢
            by_cases hr : now_test - k.time_last_executed ≤ seconds k.ratelimit_seconds
            · rw [if_pos hr]
              simp [stamp_of, map_find_assign_same m evt.code k _ hk, hk]
            · rw [if_neg hr] at h
              exact absurd rfl (h _ rfl)
        · rw [main_step_edge m evt k now_test now_stamp hty hk hchg]
          split_ifs <;> simp [stamp_of, map_find_assign_other m evt.code c _ hc]
  · rw [main_step_not_key m evt now_test now_stamp hty]

theorem run_stamp_kept (es : List (input_event × Int × Int)) (m : Map_key_event) (c : Nat)
    (h : ∀ d ∈ (run m es).2, d.code ≠ c) : stamp_of (run m es).1 c = stamp_of m c := by
  induction es generalizing m with
  | nil => rfl
  | cons e rest ih =>
    obtain ⟨evt, now_test, now_stamp⟩ := e
    simp only [run, List.mem_append, Option.mem_toList, Option.mem_def] at h ⊢
    rw [ih (main_step m evt now_test now_stamp).1 (fun d hd => h d (Or.inr hd))]
    exact main_step_stamp_kept m evt now_test now_stamp c (fun d hd => h d (Or.inl hd))

theorem main_step_result (m : Map_key_event) (evt : input_event) (now_test now_stamp : Int) :
    (main_step m evt now_test now_stamp = (m, none) ∧
      (evt.type ≠ EV_KEY ∨ map_find m evt.code = none ∨
        ∃ k, map_find m evt.code = some k ∧ level evt = k.pressed)) ∨
    ∃ k, evt.type = EV_KEY ∧ map_find m evt.code = some k ∧ level evt ≠ k.pressed ∧
      ((main_step m evt now_test now_stamp =
          (map_assign m evt.code { k with pressed := level evt }, none) ∧
        (level evt ≠ k.on_press ∨
          now_test - k.time_last_executed ≤ seconds k.ratelimit_seconds)) ∨
       (main_step m evt now_test now_stamp =
          (map_assign m evt.code
            { k with pressed := level evt, time_last_executed := now_stamp },
            some (fired evt.code k (level evt))) ∧
        level evt = k.on_press ∧
          seconds k.ratelimit_seconds < now_test - k.time_last_executed)) := by
  by_cases hty : evt.type = EV_KEY
  · cases hk : map_find m evt.code with
    | none => exact Or.inl ⟨main_step_absent m evt now_test now_stamp hk, Or.inr (Or.inl rfl)⟩
    | some k =>
      by_cases hchg : level evt = k.pressed
      · exact Or.inl ⟨main_step_same_level m evt k now_test now_stamp hk hchg,
          Or.inr (Or.inr ⟨k, rfl, hchg⟩)⟩
      · refine Or.inr ⟨k, hty, rfl, hchg, ?_⟩
        rw [main_step_edge m evt k now_test now_stamp hty hk hchg]
        by_cases hoff : level evt ≠ k.on_press
        · rw [if_pos hoff]
          exact Or.inl ⟨rfl, Or.inl hoff⟩
        · rw [if_neg hoff]
          by_cases hr : now_test - k.time_last_executed ≤ seconds k.ratelimit_seconds
          · rw [if_pos hr]
            exact Or.inl ⟨rfl, Or.inr hr⟩
          · rw [if_neg hr]
            exact Or.inr ⟨rfl, not_not.mp hoff, not_le.mp hr⟩
  · exact Or.inl ⟨main_step_not_key m evt now_test now_stamp hty, Or.inl hty⟩

/-- What a step does to the entry of a key `c` that is in the table: the rule stays, the
level becomes the event's level when the event is a key event for `c`, and stays
otherwise. -/
theorem main_step_entry (m : Map_key_event) (evt : input_event) (now_test now_stamp : Int)
    (c : Nat) (k : Event) (hk : map_find m c = some k) :
    ∃ k', map_find (main_step m evt now_test now_stamp).1 c = some k' ∧
      rule_of k' = rule_of k ∧
      k'.pressed = (if evt.type = EV_KEY ∧ evt.code = c then level evt else k.pressed) ∧
      (¬ (evt.type = EV_KEY ∧ evt.code = c) → k' = k) := by
  rcases main_step_result m evt now_test now_stamp with ⟨h, hc⟩ | ⟨k0, hty, hk0, hchg, h⟩
  · rw [h]
    refine ⟨k, hk, rfl, ?_, fun _ => rfl⟩
    by_cases hcond : evt.type = EV_KEY ∧ evt.code = c
    · rw [if_pos hcond]
      rcases hc with hc | hc | ⟨k1, hk1, hl⟩
      · exact absurd hcond.1 hc
      · rw [hcond.2, hk] at hc
        cases hc
      · rw [hcond.2, hk] at hk1
        cases hk1
        exact hl.symm
    · rw [if_neg hcond]
  · by_cases hcode : c = evt.code
    · subst hcode
      rw [hk] at hk0
      cases hk0
      rcases h with ⟨h, _⟩ | ⟨h, _⟩
      · rw [h]
        exact ⟨_, map_find_assign_same m evt.code k _ hk, rfl, by simp [hty],
          fun hn => absurd ⟨hty, rfl⟩ hn⟩
      · rw [h]
        exact ⟨_, map_find_assign_same m evt.code k _ hk, rfl, by simp [hty],
          fun hn => absurd ⟨hty, rfl⟩ hn⟩
    · have hne : ¬ (evt.type = EV_KEY ∧ evt.code = c) := fun hh => hcode hh.2.symm
      rcases h with ⟨h, _⟩ | ⟨h, _⟩
      · rw [h]
        exact ⟨k, by rw [map_find_assign_other m evt.code c _ hcode, hk], rfl,
          by rw [if_neg hne], fun _ => rfl⟩
      · rw [h]
        exact ⟨k, by rw [map_find_assign_other m evt.code c _ hcode, hk], rfl,
          by rw [if_neg hne], fun _ => rfl⟩

theorem run_cons (m : Map_key_event) (evt : input_event) (now_test now_stamp : Int)
    (rest : List (input_event × Int × Int)) :
    run m ((evt, now_test, now_stamp) :: rest) =
      ((run (main_step m evt now_test now_stamp).1 rest).1,
        (main_step m evt now_test now_stamp).2.toList ++
          (run (main_step m evt now_test now_stamp).1 rest).2) := rfl

/-- After a run the entry of a key that is in the table has the same rule, and its level is
the level of the most recent key event for the key, the level before the run if there was
none. -/
theorem run_entry (es : List (input_event × Int × Int)) (m : Map_key_event) (c : Nat)
    (k : Event) (hk : map_find m c = some k) :
    ∃ k', map_find (run m es).1 c = some k' ∧ rule_of k' = rule_of k ∧
      k'.pressed = last_level c k.pressed es := by
  induction es generalizing m k with
  | nil => exact ⟨k, hk, rfl, rfl⟩
  | cons e rest ih =>
    obtain ⟨evt, now_test, now_stamp⟩ := e
    obtain ⟨k1, h1, h2, h3, _⟩ := main_step_entry m evt now_test now_stamp c k hk
    obtain ⟨k2, g1, g2, g3⟩ := ih (main_step m evt now_test now_stamp).1 k1 h1
    refine ⟨k2, by rw [run_cons]; exact g1, g2.trans h2, ?_⟩
    rw [g3, h3]
    rfl

theorem map_assign_keys (m : Map_key_event) (c : Nat) (e : Event) :
    (map_assign m c e).map Prod.fst = m.map Prod.fst := by
  induction m with
  | nil => rfl
  | cons p rest ih =>
    obtain ⟨k0, v0⟩ := p
    by_cases hk : k0 = c
    · simp [map_assign, hk]
    · simp [map_assign, hk, ih]

theorem entries_refl (c : Nat) (l : Map_key_event) :
    List.Forall₂ (fun p q => p.1 = q.1 ∧ rule_of p.2 = rule_of q.2 ∧ (p.1 ≠ c → p.2 = q.2))
      l l := by
  induction l with
  | nil => exact List.Forall₂.nil
  | cons p rest ih => exact List.Forall₂.cons ⟨rfl, rfl, fun _ => rfl⟩ ih

theorem map_assign_entries (m : Map_key_event) (c : Nat) (k e : Event)
    (hk : map_find m c = some k) (hr : rule_of e = rule_of k) :
    List.Forall₂ (fun p q => p.1 = q.1 ∧ rule_of p.2 = rule_of q.2 ∧ (p.1 ≠ c → p.2 = q.2))
      m (map_assign m c e) := by
  induction m with
  | nil => exact List.Forall₂.nil
  | cons p rest ih =>
    obtain ⟨k0, v0⟩ := p
    by_cases h0 : k0 = c
    · simp only [map_find, h0, if_true, Option.some.injEq] at hk
      subst hk
      simp only [map_assign, h0, if_true]
      exact List.Forall₂.cons ⟨rfl, hr.symm, fun hne => absurd rfl hne⟩ (entries_refl c rest)
    · simp only [map_find, h0, if_false] at hk
      simp only [map_assign, h0, if_false]
      exact List.Forall₂.cons ⟨rfl, rfl, fun _ => rfl⟩ (ih hk)

/-- What a step does to the time stamp of a key `c` that is in the table: either it makes no
dispatch for `c` and the stamp stays, or it makes one, the stamp becomes `now_stamp`, and
the rate-limit test was passed. -/
theorem main_step_times (m : Map_key_event) (evt : input_event) (now_test now_stamp : Int)
    (c : Nat) (k : Event) (hk : map_find m c = some k) :
    ∃ k', map_find (main_step m evt now_test now_stamp).1 c = some k' ∧
      rule_of k' = rule_of k ∧
      ((((main_step m evt now_test now_stamp).2.toList.map
            (fun d => (d.code, now_stamp))).filter (fun p => p.1 = c) = [] ∧
          k'.time_last_executed = k.time_last_executed) ∨
        (((main_step m evt now_test now_stamp).2.toList.map
            (fun d => (d.code, now_stamp))).filter (fun p => p.1 = c) = [(c, now_stamp)] ∧
          k'.time_last_executed = now_stamp ∧
          seconds k.ratelimit_seconds < now_test - k.time_last_executed)) := by
  rcases main_step_result m evt now_test now_stamp with ⟨h, _⟩ | ⟨k0, hty, hk0, hchg, h⟩
  · rw [h]
    exact ⟨k, hk, rfl, Or.inl ⟨rfl, rfl⟩⟩
  · by_cases hcode : c = evt.code
    · subst hcode
      rw [hk] at hk0
      cases hk0
      rcases h with ⟨h, _⟩ | ⟨h, _, hr⟩
      · rw [h]
        exact ⟨_, map_find_assign_same m evt.code k _ hk, rfl, Or.inl ⟨rfl, rfl⟩⟩
      · rw [h]
        exact ⟨_, map_find_assign_same m evt.code k _ hk, rfl,
          Or.inr ⟨by simp [fired], rfl, hr⟩⟩
    · have hne : ¬ evt.code = c := fun hh => hcode hh.symm
      rcases h with ⟨h, _⟩ | ⟨h, _⟩
      · rw [h]
        exact ⟨k, by rw [map_find_assign_other m evt.code c _ hcode, hk], rfl,
          Or.inl ⟨rfl, rfl⟩⟩
      · rw [h]
        exact ⟨k, by rw [map_find_assign_other m evt.code c _ hcode, hk], rfl,
          Or.inl ⟨by simp [fired, hne], rfl⟩⟩

theorem run_times_chain (es : List (input_event × Int × Int)) (m : Map_key_event) (c : Nat)
    (k : Event) (hk : map_find m c = some k) (hmono : ∀ e ∈ es, e.2.1 ≤ e.2.2) :
    List.Chain (fun a b => seconds k.ratelimit_seconds < b - a) k.time_last_executed
      (((run_times m es).filter (fun p => p.1 = c)).map Prod.snd) := by
  induction es generalizing m k with
  | nil => exact List.Chain.nil
  | cons e rest ih =>
    obtain ⟨evt, now_test, now_stamp⟩ := e
    have hle : now_test ≤ now_stamp := hmono (evt, now_test, now_stamp) (List.mem_cons_self _ _)
    have hrest : ∀ e ∈ rest, e.2.1 ≤ e.2.2 := fun e he => hmono e (List.mem_cons_of_mem _ he)
    obtain ⟨k1, h1, h2, h3⟩ := main_step_times m evt now_test now_stamp c k hk
    have hR : k1.ratelimit_seconds = k.ratelimit_seconds := congrArg Prod.fst h2
    have := ih (main_step m evt now_test now_stamp).1 k1 h1 hrest
    rw [hR] at this
    simp only [run_times, List.filter_append, List.map_append]
    rcases h3 with ⟨hf, ht⟩ | ⟨hf, ht, hgap⟩
    · rw [hf, ← ht]
      exact this
    · rw [hf]
      rw [ht] at this
      exact List.Chain.cons (by omega) this

theorem readings_step_le (es : List (input_event × Int × Int))
    (h : (readings es).Pairwise (fun a b => a ≤ b)) : ∀ e ∈ es, e.2.1 ≤ e.2.2 := by
  induction es with
  | nil => intro e he; cases he
  | cons e0 rest ih =>
    obtain ⟨evt, now_test, now_stamp⟩ := e0
    simp only [readings, List.pairwise_cons] at h
    intro e he
    rcases List.mem_cons.mp he with rfl | he
    · exact h.1 now_stamp (List.mem_cons_self _ _)
    · exact ih h.2.2 e he

theorem run_append (m : Map_key_event) (a b : List (input_event × Int × Int)) :
    (run m (a ++ b)).1 = (run (run m a).1 b).1 := by
  induction a generalizing m with
  | nil => rfl
  | cons e rest ih =>
    obtain ⟨evt, now_test, now_stamp⟩ := e
    simp only [List.cons_append, run_cons]
    exact ih _

theorem main_step_find_none (m : Map_key_event) (evt : input_event) (now_test now_stamp : Int)
    (c : Nat) (h : map_find m c = none) :
    map_find (main_step m evt now_test now_stamp).1 c = none := by
  rcases main_step_result m evt now_test now_stamp with ⟨h1, _⟩ | ⟨k, _, hk, _, h1⟩
  · rw [h1]; exact h
  · have hne : c ≠ evt.code := by
      intro hc
      rw [hc, hk] at h
      cases h
    rcases h1 with ⟨h1, _⟩ | ⟨h1, _⟩ <;> rw [h1] <;>
      simp only [map_find_assign_other m evt.code c _ hne, h]

theorem run_find_none (es : List (input_event × Int × Int)) (m : Map_key_event) (c : Nat)
    (h : map_find m c = none) : map_find (run m es).1 c = none := by
  induction es generalizing m with
  | nil => exact h
  | cons e rest ih =>
    obtain ⟨evt, now_test, now_stamp⟩ := e
    rw [run_cons]
    exact ih _ (main_step_find_none m evt now_test now_stamp c h)

theorem last_level_const (c : Nat) (l : Bool) (es : List (input_event × Int × Int))
    (h : ∀ e ∈ es, e.1.type = EV_KEY → e.1.code = c → level e.1 = l) :
    last_level c l es = l := by
  induction es with
  | nil => rfl
  | cons e rest ih =>
    have hrest := ih (fun e he => h e (List.mem_cons_of_mem _ he))
    have hhead := h e (List.mem_cons_self _ _)
    simp only [last_level]
    by_cases hc : e.1.type = EV_KEY ∧ e.1.code = c
    · rw [if_pos hc, hhead hc.1 hc.2]
      exact hrest
    · rw [if_neg hc]
      exact hrest

/-- A run in which every key event for `c` reports the level `l` already stored for `c`
leaves that level (and the rule) in place. -/
theorem run_level_const (es : List (input_event × Int × Int)) (m : Map_key_event) (c : Nat)
    (k : Event) (l : Bool) (hk : map_find m c = some k) (hp : k.pressed = l)
    (h : ∀ e ∈ es, e.1.type = EV_KEY → e.1.code = c → level e.1 = l) :
    ∃ k', map_find (run m es).1 c = some k' ∧ rule_of k' = rule_of k ∧ k'.pressed = l := by
  obtain ⟨k', h1, h2, h3⟩ := run_entry es m c k hk
  refine ⟨k', h1, h2, ?_⟩
  rw [h3, hp]
  exact last_level_const c l es h

/-- After a key event for a key in the table and further events that bring no key event
of another level for that key, the stored level is the level of that event. -/
theorem level_after_event (m : Map_key_event) (e1 : input_event × Int × Int)
    (mid : List (input_event × Int × Int)) (k : Event)
    (hty : e1.1.type = EV_KEY) (hk : map_find m e1.1.code = some k)
    (h : ∀ e ∈ mid, e.1.type = EV_KEY → e.1.code = e1.1.code → level e.1 = level e1.1) :
    ∃ k', map_find (run m (e1 :: mid)).1 e1.1.code = some k' ∧ rule_of k' = rule_of k ∧
      k'.pressed = level e1.1 := by
  obtain ⟨evt, now_test, now_stamp⟩ := e1
  obtain ⟨k1, h1, h2, h3, _⟩ := main_step_entry m evt now_test now_stamp evt.code k hk
  have hp : k1.pressed = level evt := by
    rw [h3, if_pos ⟨hty, rfl⟩]
  obtain ⟨k2, g1, g2, g3⟩ := run_level_const mid _ evt.code k1 (level evt) h1 hp h
  exact ⟨k2, by rw [run_cons]; exact g1, g2.trans h2, g3⟩

/-- A run from a table in which key `c` is released and which brings only release events
for `c` leaves the entry of `c` as it is. -/
theorem run_entry_kept (es : List (input_event × Int × Int)) (m : Map_key_event) (c : Nat)
    (k : Event) (hk : map_find m c = some k) (hp : k.pressed = false)
    (h : ∀ e ∈ es, e.1.type = EV_KEY → e.1.code = c → e.1.value = 0) :
    map_find (run m es).1 c = some k := by
  induction es generalizing m with
  | nil => exact hk
  | cons e rest ih =>
    obtain ⟨evt, now_test, now_stamp⟩ := e
    rw [run_cons]
    apply ih _ _ (fun e he => h e (List.mem_cons_of_mem _ he))
    by_cases hc : evt.type = EV_KEY ∧ evt.code = c
    · have hv : evt.value = 0 := h _ (List.mem_cons_self _ _) hc.1 hc.2
      have hk' : map_find m evt.code = some k := by rw [hc.2]; exact hk
      rw [main_step_same_level m evt k now_test now_stamp hk' (by simp [level, hv, hp])]
      exact hk
    · obtain ⟨k', h1, _, _, h4⟩ := main_step_entry m evt now_test now_stamp c k hk
      rw [h1, h4 hc]

/-- The stamp stored for a key after a run is the stamp stored before the run or one of the
clock readings of the run. -/
theorem run_stamp_origin (es : List (input_event × Int × Int)) (m : Map_key_event) (c : Nat)
    (k : Event) (hk : map_find m c = some k) :
    ∃ k', map_find (run m es).1 c = some k' ∧
      (k'.time_last_executed = k.time_last_executed ∨ k'.time_last_executed ∈ readings es) := by
  induction es generalizing m k with
  | nil => exact ⟨k, hk, Or.inl rfl⟩
  | cons e rest ih =>
    obtain ⟨evt, now_test, now_stamp⟩ := e
    obtain ⟨k1, h1, _, h3⟩ := main_step_times m evt now_test now_stamp c k hk
    obtain ⟨k2, g1, g2⟩ := ih (main_step m evt now_test now_stamp).1 k1 h1
    refine ⟨k2, by rw [run_cons]; exact g1, ?_⟩
    simp only [readings, List.mem_cons]
    rcases g2 with g2 | g2
    · rcases h3 with ⟨_, ht⟩ | ⟨_, ht, _⟩
      · exact Or.inl (g2.trans ht)
      · exact Or.inr (Or.inr (Or.inl (g2.trans ht)))
    · exact Or.inr (Or.inr (Or.inr g2))

/-! ## The dispatch step: claims -/

/-- C1: on a qualifying edge (the event level differs from the stored level and equals the
target edge) tested at clock reading `t2`, the step dispatches the entry's command exactly
when `t2` minus the stored last-dispatch time exceeds the rate limit; when the difference is
at most the limit, and in particular exactly the limit, nothing is dispatched. -/
theorem rate_limit_boundary (m : Map_key_event) (evt : input_event) (k : Event)
    (t2 now_stamp : Int) (hty : evt.type = EV_KEY) (hk : map_find m evt.code = some k)
    (hchg : level evt ≠ k.pressed) (htgt : level evt = k.on_press) :
    ((main_step m evt t2 now_stamp).2 = some (fired evt.code k (level evt)) ↔
        seconds k.ratelimit_seconds < t2 - k.time_last_executed) ∧
    ((main_step m evt t2 now_stamp).2 = none ↔
        t2 - k.time_last_executed ≤ seconds k.ratelimit_seconds) ∧
    (t2 - k.time_last_executed = seconds k.ratelimit_seconds →
        (main_step m evt t2 now_stamp).2 = none) := by
  by_cases hr : t2 - k.time_last_executed ≤ seconds k.ratelimit_seconds
  · have e : (main_step m evt t2 now_stamp).2 = none := by
      rw [main_step_edge m evt k t2 now_stamp hty hk hchg]
      simp [htgt, hr]
    rw [e]
    exact ⟨⟨fun h => (by cases h), fun h => (by omega)⟩, ⟨fun _ => hr, fun _ => rfl⟩,
      fun _ => rfl⟩
  · have e : (main_step m evt t2 now_stamp).2 = some (fired evt.code k (level evt)) := by
      rw [main_step_edge m evt k t2 now_stamp hty hk hchg]
      simp [htgt, hr]
    rw [e]
    exact ⟨⟨fun _ => (by omega), fun _ => rfl⟩, ⟨fun h => (by cases h), fun h => absurd h hr⟩,
      fun h => (by omega)⟩

/-- Witness for C1: rate limit 5 s, last dispatch at 10 s, press tested at 15 s. -/
theorem rate_limit_boundary_witness :
    ((main_step (table64 5 (seconds 10)) (key_event 64 1) (seconds 15) (seconds 15)).2 =
        some (fired 64 ⟨5, true, false, seconds 10, "echo hi".toList⟩ true) ↔
      seconds 5 < seconds 15 - seconds 10) ∧
    ((main_step (table64 5 (seconds 10)) (key_event 64 1) (seconds 15) (seconds 15)).2 = none ↔
      seconds 15 - seconds 10 ≤ seconds 5) ∧
    (seconds 15 - seconds 10 = seconds 5 →
      (main_step (table64 5 (seconds 10)) (key_event 64 1) (seconds 15) (seconds 15)).2 = none) :=
  rate_limit_boundary (table64 5 (seconds 10)) (key_event 64 1)
    ⟨5, true, false, seconds 10, "echo hi".toList⟩ (seconds 15) (seconds 15)
    (by decide) (by decide) (by decide) (by decide)

/-- C2: a key-type event for a key in the table whose level equals the stored level
dispatches nothing and leaves the whole table as it was, for every pair of clock readings. -/
theorem same_level_is_ignored (m : Map_key_event) (evt : input_event) (k : Event)
    (now_test now_stamp : Int) (hty : evt.type = EV_KEY)
    (hk : map_find m evt.code = some k) (hsame : level evt = k.pressed) :
    main_step m evt now_test now_stamp = (m, none) := by
  unfold main_step
  rw [if_neg (fun h => h hty)]
  simp only [hk]
  by_cases hv : evt.value = 0
  · have hp : k.pressed = false := by rw [← hsame]; simp [level, hv]
    simp [hv, hp]
  · have hp : k.pressed = true := by rw [← hsame]; simp [level, hv]
    simp [hv, hp]

/-- Witness for C2: a release reported for the released key 64. -/
theorem same_level_is_ignored_witness :
    main_step (table64 0 0) (key_event 64 0) (seconds 9) (seconds 9) = (table64 0 0, none) :=
  same_level_is_ignored (table64 0 0) (key_event 64 0) ⟨0, true, false, 0, "echo hi".toList⟩
    (seconds 9) (seconds 9) (by decide) (by decide) (by decide)

/-- C3, counterexample: the table loaded from the line `64 100 1 echo hi` holds the epoch
(0) as last-dispatch time stamp of key 64, and the first press of key 64, tested at a clock
reading of 50 s, is suppressed by the 100 s rate limit: the level is recorded and nothing is
dispatched. -/
theorem first_edge_suppressed_before_limit :
    parse_config ["64 100 1 echo hi".toList] [] =
      [(64, ⟨100, true, false, 0, "echo hi".toList⟩)] ∧
    level (key_event 64 1) = true ∧
    main_step (parse_config ["64 100 1 echo hi".toList] []) (key_event 64 1)
        (seconds 50) (seconds 50) =
      ([(64, ⟨100, true, true, 0, "echo hi".toList⟩)], none) := by
  decide

/-- C3, amended: the initial last-dispatch time stamp is the epoch of the steady clock. For
a table loaded from any config lines and then run over any events without a dispatch for
the key, the stored stamp of the key is 0, and a qualifying edge for it dispatches the
entry's command (storing the level and the stamp reading) exactly when the clock reading
exceeds the rate limit, counted from the epoch; at a reading of at most the rate limit it
is suppressed: nothing is dispatched and only the level is stored. -/
theorem first_edge_fires_after_epoch (lines : List Str) (es : List (input_event × Int × Int))
    (evt : input_event) (k : Event) (now_test now_stamp : Int)
    (hnone : ∀ d ∈ (run (parse_config lines []) es).2, d.code ≠ evt.code)
    (hty : evt.type = EV_KEY)
    (hk : map_find (run (parse_config lines []) es).1 evt.code = some k)
    (hchg : level evt ≠ k.pressed) (htgt : level evt = k.on_press) :
    k.time_last_executed = 0 ∧
    ((main_step (run (parse_config lines []) es).1 evt now_test now_stamp).2 =
        some (fired evt.code k (level evt)) ↔
      seconds k.ratelimit_seconds < now_test) ∧
    ((main_step (run (parse_config lines []) es).1 evt now_test now_stamp).2 = none ↔
      now_test ≤ seconds k.ratelimit_seconds) ∧
    (seconds k.ratelimit_seconds < now_test →
      main_step (run (parse_config lines []) es).1 evt now_test now_stamp =
        (map_assign (run (parse_config lines []) es).1 evt.code
          { k with pressed := level evt, time_last_executed := now_stamp },
          some (fired evt.code k (level evt)))) ∧
    (now_test ≤ seconds k.ratelimit_seconds →
      main_step (run (parse_config lines []) es).1 evt now_test now_stamp =
        (map_assign (run (parse_config lines []) es).1 evt.code
          { k with pressed := level evt }, none)) := by
  have hs := run_stamp_kept es (parse_config lines []) evt.code hnone
  have h0 : k.time_last_executed = 0 := by
    simp only [stamp_of, hk, Option.map_some'] at hs
    cases hf : map_find (parse_config lines []) evt.code with
    | none => simp [hf] at hs
    | some k0 =>
      have hk0 := (parse_config_fresh lines [] (by simp [map_find]) evt.code k0 hf).1
      simp only [hf, Option.map_some', Option.some.injEq] at hs
      omega
  refine ⟨h0, ?_⟩
  rw [main_step_edge _ evt k now_test now_stamp hty hk hchg, if_neg (by simp [htgt])]
  by_cases hr : now_test - k.time_last_executed ≤ seconds k.ratelimit_seconds
  · rw [if_pos hr]
    exact ⟨⟨fun h => (by cases h), fun h => (by omega)⟩, ⟨fun _ => (by omega), fun _ => rfl⟩,
      fun h => (by omega), fun _ => rfl⟩
  · rw [if_neg hr]
    exact ⟨⟨fun _ => (by omega), fun _ => rfl⟩, ⟨fun h => (by cases h), fun h => (by omega)⟩,
      fun _ => rfl, fun h => (by omega)⟩

/-- Witness for C3 (amended): fire-on-release rule for key 64 with a 100 s limit; the press
has been seen, the release is tested at 100 s, exactly the limit, and is suppressed. -/
theorem first_edge_fires_after_epoch_witness :
    (main_step (run (parse_config ["64 100 0 echo hi".toList] [])
        [(key_event 64 1, seconds 3, seconds 3)]).1 (key_event 64 0)
        (seconds 100) (seconds 100)).2 = none ∧
    (main_step (run (parse_config ["64 100 0 echo hi".toList] [])
        [(key_event 64 1, seconds 3, seconds 3)]).1 (key_event 64 0)
        (seconds 100 + 1) (seconds 100 + 2)).2 =
      some (fired 64 ⟨100, false, true, 0, "echo hi".toList⟩ false) :=
  ⟨(first_edge_fires_after_epoch ["64 100 0 echo hi".toList]
      [(key_event 64 1, seconds 3, seconds 3)] (key_event 64 0)
      ⟨100, false, true, 0, "echo hi".toList⟩ (seconds 100) (seconds 100)
      (by decide) (by decide) (by decide) (by decide) (by decide)).2.2.1.mpr (by decide),
    (first_edge_fires_after_epoch ["64 100 0 echo hi".toList]
      [(key_event 64 1, seconds 3, seconds 3)] (key_event 64 0)
      ⟨100, false, true, 0, "echo hi".toList⟩ (seconds 100 + 1) (seconds 100 + 2)
      (by decide) (by decide) (by decide) (by decide) (by decide)).2.1.mpr (by decide)⟩

/-- C4: a rate limit of zero never suppresses. In every state the loop reaches (a table
loaded from any config lines, then any events) and at every clock reading the loop can then
take (after the epoch and later than every reading taken before), a qualifying edge for a
key whose rule has rate limit 0 dispatches the entry's command and stores the level and the
stamp reading. -/
theorem zero_interval_never_suppresses (lines : List Str)
    (es : List (input_event × Int × Int)) (evt : input_event) (k : Event)
    (now_test now_stamp : Int) (hty : evt.type = EV_KEY)
    (hk : map_find (run (parse_config lines []) es).1 evt.code = some k)
    (hzero : k.ratelimit_seconds = 0) (hchg : level evt ≠ k.pressed)
    (htgt : level evt = k.on_press) (hpos : 0 < now_test)
    (hlater : ∀ t ∈ readings es, t < now_test) :
    main_step (run (parse_config lines []) es).1 evt now_test now_stamp =
      (map_assign (run (parse_config lines []) es).1 evt.code
        { k with pressed := level evt, time_last_executed := now_stamp },
        some (fired evt.code k (level evt))) := by
  have hstamp : k.time_last_executed < now_test := by
    cases hf : map_find (parse_config lines []) evt.code with
    | none =>
      rw [run_find_none es _ evt.code hf] at hk
      cases hk
    | some k0 =>
      have hk0 := (parse_config_fresh lines [] (by simp [map_find]) evt.code k0 hf).1
      obtain ⟨k', h1, h2⟩ := run_stamp_origin es (parse_config lines []) evt.code k0 hf
      rw [hk] at h1
      cases h1
      rcases h2 with h2 | h2
      · rw [h2, hk0]; exact hpos
      · exact hlater _ h2
  have hs : seconds k.ratelimit_seconds = 0 := by simp [seconds, hzero]
  rw [main_step_edge _ evt k now_test now_stamp hty hk hchg, if_neg (by simp [htgt]),
    if_neg (by rw [hs]; omega)]

/-- Witness for C4: rule `64 0 1 echo hi`; a press at 1 s has fired, the key was released
at 2 s, and the press tested at 3 s fires again. -/
theorem zero_interval_never_suppresses_witness :
    main_step (run (parse_config ["64 0 1 echo hi".toList] [])
        [(key_event 64 1, seconds 1, seconds 1 + 1), (key_event 64 0, seconds 2, seconds 2 + 1)]).1
        (key_event 64 1) (seconds 3) (seconds 3 + 1) =
      (map_assign (run (parse_config ["64 0 1 echo hi".toList] [])
        [(key_event 64 1, seconds 1, seconds 1 + 1), (key_event 64 0, seconds 2, seconds 2 + 1)]).1
        64 ⟨0, true, true, seconds 3 + 1, "echo hi".toList⟩,
        some (fired 64 ⟨0, true, false, seconds 1 + 1, "echo hi".toList⟩ true)) :=
  zero_interval_never_suppresses ["64 0 1 echo hi".toList]
    [(key_event 64 1, seconds 1, seconds 1 + 1), (key_event 64 0, seconds 2, seconds 2 + 1)]
    (key_event 64 1) ⟨0, true, false, seconds 1 + 1, "echo hi".toList⟩ (seconds 3) (seconds 3 + 1)
    (by decide) (by decide) (by decide) (by decide) (by decide) (by decide) (by decide)

/-- C5: an event that is not of the key type, or whose key code is absent from the table,
dispatches nothing and returns the table unchanged, for every value and clock reading. -/
theorem ignored_event_changes_nothing (m : Map_key_event) (evt : input_event)
    (now_test now_stamp : Int) (h : evt.type ≠ EV_KEY ∨ map_find m evt.code = none) :
    main_step m evt now_test now_stamp = (m, none) := by
  rcases h with h | h
  · exact main_step_not_key m evt now_test now_stamp h
  · exact main_step_absent m evt now_test now_stamp h

/-- Witness for C5: a press of key 65, which the table does not hold. -/
theorem ignored_event_changes_nothing_witness :
    main_step (table64 0 0) (key_event 65 1) (seconds 9) (seconds 9) = (table64 0 0, none) :=
  ignored_event_changes_nothing (table64 0 0) (key_event 65 1) (seconds 9) (seconds 9)
    (Or.inr (by decide))

/-- C6: a key event whose level differs from the stored level but is not the target edge
dispatches nothing; afterwards the entry holds the new level and is otherwise as before
(same rule, same last-dispatch time stamp), for every pair of clock readings. -/
theorem non_target_edge_records_level (m : Map_key_event) (evt : input_event) (k : Event)
    (now_test now_stamp : Int) (hty : evt.type = EV_KEY) (hk : map_find m evt.code = some k)
    (hchg : level evt ≠ k.pressed) (hoff : level evt ≠ k.on_press) :
    (main_step m evt now_test now_stamp).2 = none ∧
    map_find (main_step m evt now_test now_stamp).1 evt.code =
      some { k with pressed := level evt } ∧
    (main_step m evt now_test now_stamp).1 =
      map_assign m evt.code { k with pressed := level evt } := by
  rw [main_step_edge m evt k now_test now_stamp hty hk hchg, if_pos hoff]
  exact ⟨rfl, map_find_assign_same m evt.code k _ hk, rfl⟩

/-- Witness for C6: a press of key 64 under a fire-on-release rule. -/
theorem non_target_edge_records_level_witness :
    (main_step [(64, ⟨3, false, false, seconds 1, "echo hi".toList⟩)] (key_event 64 1)
        (seconds 9) (seconds 9)).2 = none ∧
    map_find (main_step [(64, ⟨3, false, false, seconds 1, "echo hi".toList⟩)] (key_event 64 1)
        (seconds 9) (seconds 9)).1 (key_event 64 1).code =
      some ⟨3, false, level (key_event 64 1), seconds 1, "echo hi".toList⟩ ∧
    (main_step [(64, ⟨3, false, false, seconds 1, "echo hi".toList⟩)] (key_event 64 1)
        (seconds 9) (seconds 9)).1 =
      map_assign [(64, ⟨3, false, false, seconds 1, "echo hi".toList⟩)] (key_event 64 1).code
        ⟨3, false, level (key_event 64 1), seconds 1, "echo hi".toList⟩ :=
  non_target_edge_records_level [(64, ⟨3, false, false, seconds 1, "echo hi".toList⟩)]
    (key_event 64 1) ⟨3, false, false, seconds 1, "echo hi".toList⟩ (seconds 9) (seconds 9)
    (by decide) (by decide) (by decide) (by decide)

/-- C7: whenever the step fires, the single dispatch it makes hands the sink the command
stored for the event's key code, reports that key code, that command and the word for the
event's level, and afterwards the entry holds the event's level and the stamp reading as its
last-dispatch time, the rule being unchanged. -/
theorem dispatch_effects (m : Map_key_event) (evt : input_event) (now_test now_stamp : Int)
    (d : Dispatch) (h : (main_step m evt now_test now_stamp).2 = some d) :
    ∃ k : Event, map_find m evt.code = some k ∧
      d.command = k.exec ∧ d.shown = k.exec ∧ d.code = evt.code ∧
      d.word = (if level evt then " pressed".toList else " released".toList) ∧
      map_find (main_step m evt now_test now_stamp).1 evt.code =
        some { k with pressed := level evt, time_last_executed := now_stamp } := by
  by_cases hty : evt.type = EV_KEY
  · cases hk : map_find m evt.code with
    | none =>
      rw [main_step_absent m evt now_test now_stamp hk] at h
      cases h
    | some k =>
      by_cases hchg : level evt = k.pressed
      · rw [main_step_same_level m evt k now_test now_stamp hk hchg] at h
        cases h
      · rw [main_step_edge m evt k now_test now_stamp hty hk hchg] at h ⊢
        by_cases hoff : level evt ≠ k.on_press
        · rw [if_pos hoff] at h
          cases h
        · rw [if_neg hoff] at h ⊢
          by_cases hr : now_test - k.time_last_executed ≤ seconds k.ratelimit_seconds
          · rw [if_pos hr] at h
            cases h
          · rw [if_neg hr] at h ⊢
            simp only [Option.some.injEq] at h
            subst h
            exact ⟨k, rfl, rfl, rfl, rfl, rfl, map_find_assign_same m evt.code k _ hk⟩
  · rw [main_step_not_key m evt now_test now_stamp hty] at h
    cases h

/-- Witness for C7: the press of key 64, rate limit 2 s, tested at 50 s and stamped one
nanosecond later. -/
theorem dispatch_effects_witness :
    ∃ k : Event, map_find (table64 2 0) (key_event 64 1).code = some k ∧
      (fired 64 ⟨2, true, false, 0, "echo hi".toList⟩ true).command = k.exec ∧
      (fired 64 ⟨2, true, false, 0, "echo hi".toList⟩ true).shown = k.exec ∧
      (fired 64 ⟨2, true, false, 0, "echo hi".toList⟩ true).code = (key_event 64 1).code ∧
      (fired 64 ⟨2, true, false, 0, "echo hi".toList⟩ true).word =
        (if level (key_event 64 1) then " pressed".toList else " released".toList) ∧
      map_find (main_step (table64 2 0) (key_event 64 1) (seconds 50) (seconds 50 + 1)).1
          (key_event 64 1).code =
        some { k with pressed := level (key_event 64 1), time_last_executed := seconds 50 + 1 } :=
  dispatch_effects (table64 2 0) (key_event 64 1) (seconds 50) (seconds 50 + 1)
    (fired 64 ⟨2, true, false, 0, "echo hi".toList⟩ true) (by decide)

/-- C12: a dispatch step keeps the key codes of the table and every entry's rule (rate
limit, target edge, command), entry by entry, and changes no entry stored under a key code
other than the event's; seen through `find`, every key has the same rule before and after
and every key other than the event's code has the same entry. -/
theorem dispatch_step_frame (m : Map_key_event) (evt : input_event) (now_test now_stamp : Int) :
    (main_step m evt now_test now_stamp).1.map Prod.fst = m.map Prod.fst ∧
    List.Forall₂
      (fun p q => p.1 = q.1 ∧ rule_of p.2 = rule_of q.2 ∧ (p.1 ≠ evt.code → p.2 = q.2))
      m (main_step m evt now_test now_stamp).1 ∧
    (∀ key, (map_find (main_step m evt now_test now_stamp).1 key).map rule_of =
      (map_find m key).map rule_of) ∧
    (∀ key, key ≠ evt.code →
      map_find (main_step m evt now_test now_stamp).1 key = map_find m key) := by
  have hassign : ∀ (k e : Event), map_find m evt.code = some k → rule_of e = rule_of k →
      (map_assign m evt.code e).map Prod.fst = m.map Prod.fst ∧
      List.Forall₂
        (fun p q => p.1 = q.1 ∧ rule_of p.2 = rule_of q.2 ∧ (p.1 ≠ evt.code → p.2 = q.2))
        m (map_assign m evt.code e) ∧
      (∀ key, (map_find (map_assign m evt.code e) key).map rule_of =
        (map_find m key).map rule_of) ∧
      (∀ key, key ≠ evt.code → map_find (map_assign m evt.code e) key = map_find m key) := by
    intro k e hk hr
    refine ⟨map_assign_keys m evt.code e, map_assign_entries m evt.code k e hk hr, ?_,
      fun key hne => map_find_assign_other m evt.code key e hne⟩
    intro key
    by_cases hkey : key = evt.code
    · rw [hkey, map_find_assign_same m evt.code k e hk, hk]
      simp [hr]
    · rw [map_find_assign_other m evt.code key e hkey]
  rcases main_step_result m evt now_test now_stamp with ⟨h, _⟩ | ⟨k, _, hk, _, h⟩
  · rw [h]
    exact ⟨rfl, entries_refl evt.code m, fun _ => rfl, fun _ _ => rfl⟩
  · rcases h with ⟨h, _⟩ | ⟨h, _⟩
    · rw [h]
      exact hassign k _ hk rfl
    · rw [h]
      exact hassign k _ hk rfl

/-- C13: over a run whose clock readings are non-decreasing, the recorded times of
successive dispatches for one key code are more than that key's rate limit apart (and the
first is more than the rate limit after the stamp stored before the run). -/
theorem dispatch_spacing (m : Map_key_event) (es : List (input_event × Int × Int)) (c : Nat)
    (k : Event) (hk : map_find m c = some k)
    (hclock : (readings es).Pairwise (fun a b => a ≤ b)) :
    List.Chain' (fun a b => seconds k.ratelimit_seconds < b - a)
      (((run_times m es).filter (fun p => p.1 = c)).map Prod.snd) ∧
    List.Chain (fun a b => seconds k.ratelimit_seconds < b - a) k.time_last_executed
      (((run_times m es).filter (fun p => p.1 = c)).map Prod.snd) := by
  have h := run_times_chain es m c k hk (readings_step_le es hclock)
  exact ⟨List.Chain'.tail (l := k.time_last_executed :: _) h, h⟩

/-- Witness for C13: rate limit 5 s; the run makes two dispatches for key 64, stamped just
after 6 s and just after 12 s, the press at 8 s being suppressed. -/
theorem dispatch_spacing_witness :
    run_times (table64 5 0) press_release_run = [(64, seconds 6 + 1), (64, seconds 12 + 1)] ∧
    List.Chain' (fun a b => seconds 5 < b - a)
      (((run_times (table64 5 0) press_release_run).filter (fun p => p.1 = 64)).map Prod.snd) ∧
    List.Chain (fun a b => seconds 5 < b - a) 0
      (((run_times (table64 5 0) press_release_run).filter (fun p => p.1 = 64)).map Prod.snd) :=
  ⟨by decide,
    dispatch_spacing (table64 5 0) press_release_run 64 ⟨5, true, false, 0, "echo hi".toList⟩
      (by decide) (by decide)⟩

/-- C14: over a run from any table, (1) a key event whose level equals the level of the
previous key-type event for the same key code dispatches nothing, and (2) between two
dispatches for one key code the sequence holds a key event for that key code whose level
is the opposite of the dispatching level. -/
theorem one_dispatch_per_edge (m : Map_key_event) (pre mid : List (input_event × Int × Int))
    (e1 e2 : input_event × Int × Int) (hcode : e2.1.code = e1.1.code) :
    (e1.1.type = EV_KEY → level e2.1 = level e1.1 →
      (∀ e ∈ mid, ¬ (e.1.type = EV_KEY ∧ e.1.code = e1.1.code)) →
      (main_step (run m (pre ++ e1 :: mid)).1 e2.1 e2.2.1 e2.2.2).2 = none) ∧
    (∀ d1 d2, (main_step (run m pre).1 e1.1 e1.2.1 e1.2.2).2 = some d1 →
      (main_step (run m (pre ++ e1 :: mid)).1 e2.1 e2.2.1 e2.2.2).2 = some d2 →
      ∃ e ∈ mid, e.1.type = EV_KEY ∧ e.1.code = e1.1.code ∧ level e.1 ≠ level e1.1) := by
  rw [run_append]
  constructor
  · intro hty hlev hmid
    cases hk : map_find (run m pre).1 e1.1.code with
    | none =>
      have := run_find_none (e1 :: mid) (run m pre).1 e1.1.code hk
      rw [← hcode] at this
      rw [main_step_absent _ e2.1 e2.2.1 e2.2.2 this]
    | some k =>
      obtain ⟨k', h1, _, h3⟩ := level_after_event (run m pre).1 e1 mid k hty hk
        (fun e he h1 h2 => absurd ⟨h1, h2⟩ (hmid e he))
      rw [← hcode] at h1
      rw [main_step_same_level _ e2.1 k' e2.2.1 e2.2.2 h1 (by rw [h3, hlev])]
  · intro d1 d2 hd1 hd2
    by_contra hno
    have hall : ∀ e ∈ mid, e.1.type = EV_KEY → e.1.code = e1.1.code →
        level e.1 = level e1.1 := by
      intro e he h1 h2
      by_contra h3
      exact hno ⟨e, he, h1, h2, h3⟩
    rcases main_step_result (run m pre).1 e1.1 e1.2.1 e1.2.2 with ⟨h, _⟩ | ⟨k, hty, hk, _, h⟩
    · rw [h] at hd1
      cases hd1
    · rcases h with ⟨h, _⟩ | ⟨_, htgt, _⟩
      · rw [h] at hd1
        cases hd1
      · obtain ⟨k', h1, h2, h3⟩ := level_after_event (run m pre).1 e1 mid k hty hk hall
        rw [← hcode] at h1
        have hon : k'.on_press = k.on_press := congrArg (fun r => r.2.1) h2
        rcases main_step_result (run (run m pre).1 (e1 :: mid)).1 e2.1 e2.2.1 e2.2.2 with
          ⟨g, _⟩ | ⟨k2, _, hk2, hchg, g⟩
        · rw [g] at hd2
          cases hd2
        · rw [h1] at hk2
          cases hk2
          rcases g with ⟨g, _⟩ | ⟨_, gtgt, _⟩
          · rw [g] at hd2
            cases hd2
          · apply hchg
            rw [h3, gtgt, hon, htgt]

/-- Witness for C14: after a press of key 64 a repeated press (value 2) dispatches nothing;
and between the dispatching presses at 6 s and 12 s the run holds a release of key 64. -/
theorem one_dispatch_per_edge_witness :
    (main_step (run (table64 0 0) ([] ++ (key_event 64 1, seconds 6, seconds 6) :: [])).1
        (key_event 64 2) (seconds 7) (seconds 7)).2 = none ∧
    ∃ e ∈ [(key_event 64 0, seconds 7, seconds 7 + 1)],
      e.1.type = EV_KEY ∧ e.1.code = (key_event 64 1).code ∧
        level e.1 ≠ level (key_event 64 1) :=
  ⟨(one_dispatch_per_edge (table64 0 0) [] [] (key_event 64 1, seconds 6, seconds 6)
      (key_event 64 2, seconds 7, seconds 7) (by decide)).1 (by decide) (by decide) (by decide),
    (one_dispatch_per_edge (table64 5 0) [] [(key_event 64 0, seconds 7, seconds 7 + 1)]
      (key_event 64 1, seconds 6, seconds 6 + 1) (key_event 64 1, seconds 12, seconds 12 + 1)
      (by decide)).2
      (fired 64 ⟨5, true, false, 0, "echo hi".toList⟩ true)
      (fired 64 ⟨5, true, false, seconds 6 + 1, "echo hi".toList⟩ true)
      (by decide) (by decide)⟩

/-- C15: a qualifying edge that the rate limiter suppresses dispatches nothing, stores the
new level and leaves the rest of the entry, the last-dispatch time stamp included, as it
was; after it, whatever events follow that bring no key event of the opposite level for
the key, a further report of the same level for the key dispatches nothing and changes
nothing, at every clock reading. -/
theorem rate_limited_edge_is_consumed (m : Map_key_event) (evt : input_event) (k : Event)
    (now_test now_stamp : Int) (hty : evt.type = EV_KEY) (hk : map_find m evt.code = some k)
    (hchg : level evt ≠ k.pressed) (htgt : level evt = k.on_press)
    (hlim : now_test - k.time_last_executed ≤ seconds k.ratelimit_seconds) :
    (main_step m evt now_test now_stamp).2 = none ∧
    map_find (main_step m evt now_test now_stamp).1 evt.code =
      some { k with pressed := level evt } ∧
    ∀ (mid : List (input_event × Int × Int)) (again : input_event) (t s : Int),
      (∀ e ∈ mid, e.1.type = EV_KEY → e.1.code = evt.code → level e.1 = level evt) →
      again.code = evt.code → level again = level evt →
      main_step (run (main_step m evt now_test now_stamp).1 mid).1 again t s =
        ((run (main_step m evt now_test now_stamp).1 mid).1, none) := by
  have hstep : main_step m evt now_test now_stamp =
      (map_assign m evt.code { k with pressed := level evt }, none) := by
    rw [main_step_edge m evt k now_test now_stamp hty hk hchg, if_neg (by simp [htgt]),
      if_pos hlim]
  have hfind := map_find_assign_same m evt.code k { k with pressed := level evt } hk
  rw [hstep]
  refine ⟨rfl, hfind, ?_⟩
  intro mid again t s hmid hcode hlev
  obtain ⟨k', h1, _, h3⟩ := run_level_const mid _ evt.code _ (level evt) hfind rfl hmid
  exact main_step_same_level _ again k' t s (by rw [hcode]; exact h1) (by rw [h3, hlev])

/-- Witness for C15: rate limit 5 s, last dispatch at 10 s; the press at 12 s is suppressed,
and after an event for key 65 a repeated press at 100 s dispatches nothing. -/
theorem rate_limited_edge_is_consumed_witness :
    (main_step (table64 5 (seconds 10)) (key_event 64 1) (seconds 12) (seconds 12)).2 = none ∧
    map_find (main_step (table64 5 (seconds 10)) (key_event 64 1) (seconds 12) (seconds 12)).1
        64 = some ⟨5, true, true, seconds 10, "echo hi".toList⟩ ∧
    main_step
        (run (main_step (table64 5 (seconds 10)) (key_event 64 1) (seconds 12) (seconds 12)).1
          [(key_event 65 1, seconds 13, seconds 13)]).1
        (key_event 64 2) (seconds 100) (seconds 100) =
      ((run (main_step (table64 5 (seconds 10)) (key_event 64 1) (seconds 12) (seconds 12)).1
          [(key_event 65 1, seconds 13, seconds 13)]).1, none) :=
  have h := rate_limited_edge_is_consumed (table64 5 (seconds 10)) (key_event 64 1)
    ⟨5, true, false, seconds 10, "echo hi".toList⟩ (seconds 12) (seconds 12)
    (by decide) (by decide) (by decide) (by decide) (by decide)
  ⟨h.1, h.2.1, h.2.2 [(key_event 65 1, seconds 13, seconds 13)] (key_event 64 2)
    (seconds 100) (seconds 100) (by decide) (by decide) (by decide)⟩

/-- C18: from a loaded table, after any sequence of events with any clock readings, the
stored level of every key of the table is the level of the most recent key-type event for
that key (pressed iff its value is nonzero), and released when there was none. -/
theorem level_follows_events (lines : List Str) (es : List (input_event × Int × Int))
    (c : Nat) (k : Event) (hk : map_find (parse_config lines []) c = some k) :
    ∃ k', map_find (run (parse_config lines []) es).1 c = some k' ∧
      k'.pressed = last_level c false es := by
  obtain ⟨k', h1, _, h3⟩ := run_entry es (parse_config lines []) c k hk
  have hp := (parse_config_fresh lines [] (by simp [map_find]) c k hk).2
  exact ⟨k', h1, by rw [h3, hp]⟩

/-- Witness for C18: the table loaded from `64 5 1 echo hi`, run over presses and releases
of key 64 that end with a press. -/
theorem level_follows_events_witness :
    last_level 64 false press_release_run = true ∧
    ∃ k', map_find (run (parse_config ["64 5 1 echo hi".toList] []) press_release_run).1 64 =
        some k' ∧ k'.pressed = last_level 64 false press_release_run :=
  ⟨by decide,
    level_follows_events ["64 5 1 echo hi".toList] press_release_run 64
      ⟨5, true, false, 0, "echo hi".toList⟩ (by decide)⟩

/-- C19: a release event dispatches only when the stored level of its key is pressed; from a
loaded table, after events that bring no press for key `c`, a release event for `c`
dispatches nothing and the entry of `c` is still the loaded one. -/
theorem release_needs_prior_press (lines : List Str) (es : List (input_event × Int × Int))
    (c : Nat) (k : Event) (evt : input_event) (now_test now_stamp : Int)
    (hk : map_find (parse_config lines []) c = some k)
    (hes : ∀ e ∈ es, e.1.type = EV_KEY → e.1.code = c → e.1.value = 0)
    (hcode : evt.code = c) (hrel : evt.value = 0) :
    (∀ (m : Map_key_event) (t s : Int) (d : Dispatch), (main_step m evt t s).2 = some d →
      ∃ k', map_find m evt.code = some k' ∧ k'.pressed = true) ∧
    main_step (run (parse_config lines []) es).1 evt now_test now_stamp =
      ((run (parse_config lines []) es).1, none) ∧
    map_find (run (parse_config lines []) es).1 c = some k ∧
    map_find (main_step (run (parse_config lines []) es).1 evt now_test now_stamp).1 c =
      some k := by
  have hl : level evt = false := by simp [level, hrel]
  have hp := (parse_config_fresh lines [] (by simp [map_find]) c k hk).2
  have hkept := run_entry_kept es (parse_config lines []) c k hk hp hes
  have hstep : main_step (run (parse_config lines []) es).1 evt now_test now_stamp =
      ((run (parse_config lines []) es).1, none) :=
    main_step_same_level _ evt k now_test now_stamp (by rw [hcode]; exact hkept)
      (by rw [hl, hp])
  refine ⟨?_, hstep, hkept, by rw [hstep]; exact hkept⟩
  intro m t s d hd
  rcases main_step_result m evt t s with ⟨h, _⟩ | ⟨k0, _, hk0, hchg, _⟩
  · rw [h] at hd
    cases hd
  · refine ⟨k0, hk0, ?_⟩
    cases hkp : k0.pressed with
    | true => rfl
    | false => rw [hl, hkp] at hchg; exact absurd rfl hchg

/-- Witness for C19: the table loaded from the fire-on-release rule `64 5 0 echo hi`, a
release of key 64 and a press of key 65, then a release of key 64 at 100 s. -/
theorem release_needs_prior_press_witness :
    (∀ (m : Map_key_event) (t s : Int) (d : Dispatch),
      (main_step m (key_event 64 0) t s).2 = some d →
      ∃ k', map_find m (key_event 64 0).code = some k' ∧ k'.pressed = true) ∧
    main_step (run (parse_config ["64 5 0 echo hi".toList] [])
        [(key_event 64 0, seconds 50, seconds 50), (key_event 65 1, seconds 60, seconds 60)]).1
        (key_event 64 0) (seconds 100) (seconds 100) =
      ((run (parse_config ["64 5 0 echo hi".toList] [])
        [(key_event 64 0, seconds 50, seconds 50), (key_event 65 1, seconds 60, seconds 60)]).1,
        none) ∧
    map_find (run (parse_config ["64 5 0 echo hi".toList] [])
        [(key_event 64 0, seconds 50, seconds 50), (key_event 65 1, seconds 60, seconds 60)]).1
        64 = some ⟨5, false, false, 0, "echo hi".toList⟩ ∧
    map_find (main_step (run (parse_config ["64 5 0 echo hi".toList] [])
        [(key_event 64 0, seconds 50, seconds 50), (key_event 65 1, seconds 60, seconds 60)]).1
        (key_event 64 0) (seconds 100) (seconds 100)).1 64 =
      some ⟨5, false, false, 0, "echo hi".toList⟩ :=
  release_needs_prior_press ["64 5 0 echo hi".toList]
    [(key_event 64 0, seconds 50, seconds 50), (key_event 65 1, seconds 60, seconds 60)]
    64 ⟨5, false, false, 0, "echo hi".toList⟩ (key_event 64 0) (seconds 100) (seconds 100)
    (by decide) (by decide) (by decide) (by decide)

/-! ## The config loader: claims -/


/-- C8: a line of three unsigned decimal numerals for `k`, `r`, `f` (each below `2 ^ 32`,
leading zeros allowed) and a non-empty command `c` that neither starts nor ends with a
space or tab, the four fields separated by non-empty runs of spaces and tabs and the line
optionally surrounded by spaces and tabs, loads into the empty table as exactly one entry:
key `k`, rate limit `r`, fire on press iff `f` is nonzero, level released, command `c`
verbatim. -/
theorem parse_well_formed_line (k r f zk zr zf : Nat) (c b0 b1 b2 b3 b4 : Str)
    (hk : k < 2 ^ 32) (hr : r < 2 ^ 32) (hf : f < 2 ^ 32)
    (hb0 : ∀ x ∈ b0, x = ' ' ∨ x = '\t') (hb1 : ∀ x ∈ b1, x = ' ' ∨ x = '\t')
    (hb2 : ∀ x ∈ b2, x = ' ' ∨ x = '\t') (hb3 : ∀ x ∈ b3, x = ' ' ∨ x = '\t')
    (hb4 : ∀ x ∈ b4, x = ' ' ∨ x = '\t')
    (hn1 : b1 ≠ []) (hn2 : b2 ≠ []) (hn3 : b3 ≠ []) (hc : c ≠ [])
    (hcf : ∀ x, c.head? = some x → x ≠ ' ' ∧ x ≠ '\t')
    (hcl : ∀ x, c.getLast? = some x → x ≠ ' ' ∧ x ≠ '\t') :
    parse_config
        [b0 ++ numeral zk k ++ b1 ++ numeral zr r ++ b2 ++ numeral zf f ++ b3 ++ c ++ b4] [] =
      [(k, { ratelimit_seconds := r
             on_press := decide (f ≠ 0)
             pressed := false
             time_last_executed := 0
             exec := c })] := by
  have blank_of : ∀ b : Str, (∀ x ∈ b, x = ' ' ∨ x = '\t') → ∀ x ∈ b, is_blank x = true :=
    fun b hb x hx => (is_blank_iff x).mpr (hb x hx)
  have not_blank : ∀ x : Char, x ≠ ' ' ∧ x ≠ '\t' → is_blank x = false := by
    intro x hx
    cases hbx : is_blank x with
    | false => rfl
    | true =>
      rcases (is_blank_iff x).mp hbx with h | h
      · exact absurd h hx.1
      · exact absurd h hx.2
  obtain ⟨k1, k2, k3⟩ := numeral_spec zk k
  obtain ⟨r1, r2, r3⟩ := numeral_spec zr r
  obtain ⟨f1, f2, f3⟩ := numeral_spec zf f
  have hword : ∀ w : Str, (∀ x ∈ w, isdigit x = true) → ∀ x ∈ w, is_blank x = false :=
    fun w hw x hx => (isdigit_not_special x (hw x hx)).1
  have hhash : (numeral zk k).head? ≠ some '#' := by
    intro hh
    have hmem : '#' ∈ numeral zk k := List.mem_of_mem_head? hh
    exact absurd (k2 _ hmem) (by decide)
  have hbound : ∀ n : Nat, n < 2 ^ 32 → n ≤ ULONG_MAX := by
    intro n hn
    simp only [ULONG_MAX]
    omega
  have he := parse_entry_fields b0 (numeral zk k) b1 (numeral zr r) b2 (numeral zf f) b3 c b4
    (blank_of b0 hb0) (blank_of b1 hb1) (blank_of b2 hb2) (blank_of b3 hb3) (blank_of b4 hb4)
    hn1 hn2 hn3 (hword _ k2) (hword _ r2) (hword _ f2) k1 r1 f1 hhash hc
    (fun x hx => not_blank x (hcf x hx)) (fun x hx => not_blank x (hcl x hx))
  rw [strtoul_digits _ k1 k2 (by rw [k3]; exact hbound k hk),
    strtoul_digits _ r1 r2 (by rw [r3]; exact hbound r hr),
    strtoul_digits _ f1 f2 (by rw [f3]; exact hbound f hf), k3, r3, f3] at he
  have hku : to_unsigned k = k := Nat.mod_eq_of_lt hk
  have hru : to_unsigned r = r := Nat.mod_eq_of_lt hr
  rw [hku, hru] at he
  simp only [parse_config, List.foldl_cons, List.foldl_nil, List.append_assoc]
  rw [parse_config_line_eq, he]
  simp [map_insert, map_find, map_place]

/-- Witness for C8: the line `64 2 1 echo hi`. -/
theorem parse_well_formed_line_witness :
    parse_config ["64 2 1 echo hi".toList] [] =
      [(64, { ratelimit_seconds := 2
              on_press := true
              pressed := false
              time_last_executed := 0
              exec := "echo hi".toList })] :=
  parse_well_formed_line 64 2 1 0 0 0 "echo hi".toList [] [' '] [' '] [' '] []
    (by decide) (by decide) (by decide) (by decide) (by decide) (by decide) (by decide)
    (by decide) (by decide) (by decide) (by decide) (by decide) (by decide) (by decide)

/-- C9, counterexample: of two well-formed lines for key 64 the table keeps the rule of the
first (`64 2 1 echo hi`), not that of the later line (`64 3 0 foo`), which on its own would
load as rate limit 3, fire on release, command `foo`. -/
theorem duplicate_keycode_keeps_first :
    parse_config ["64 3 0 foo".toList] [] = [(64, ⟨3, false, false, 0, "foo".toList⟩)] ∧
    parse_config ["64 2 1 echo hi".toList, "64 3 0 foo".toList] [] =
      [(64, ⟨2, true, false, 0, "echo hi".toList⟩)] := by
  decide

/-- C9, amended: duplicate key codes are first-wins. When a line that on its own loads as
the entry `e` for `key` comes after lines none of which sets `key`, the loaded table holds
`e` for `key` whatever lines follow, later lines for the same key included. -/
theorem duplicate_keycode_first_wins (pre rest : List Str) (l : Str) (key : Nat) (e : Event)
    (hl : parse_config [l] [] = [(key, e)])
    (hpre : map_find (parse_config pre []) key = none) :
    map_find (parse_config (pre ++ l :: rest) []) key = some e := by
  have hp : parse_entry l = some (key, e) := by
    simp only [parse_config, List.foldl_cons, List.foldl_nil, parse_config_line_eq] at hl
    cases hpe : parse_entry l with
    | none => rw [hpe] at hl; cases hl
    | some p =>
      rw [hpe] at hl
      simp only [map_insert, map_find, map_place, List.cons.injEq, and_true] at hl
      rw [← hl]
  have hstep : parse_config (l :: rest) (parse_config pre []) =
      parse_config rest (parse_config_line (parse_config pre []) l) := rfl
  rw [parse_config_append, hstep]
  apply parse_config_keeps
  rw [parse_config_line_eq, hp]
  exact map_find_insert_absent _ key e hpre

/-- Witness for C9 (amended): a line for key 3, then two lines for key 64. -/
theorem duplicate_keycode_first_wins_witness :
    map_find (parse_config (["3 1 0 x".toList] ++ "64 2 1 echo hi".toList ::
        ["64 3 0 foo".toList]) []) 64 = some ⟨2, true, false, 0, "echo hi".toList⟩ :=
  duplicate_keycode_first_wins ["3 1 0 x".toList] ["64 3 0 foo".toList]
    "64 2 1 echo hi".toList 64 ⟨2, true, false, 0, "echo hi".toList⟩ (by decide) (by decide)

/-- C10: a line that has no character other than spaces and tabs left once its first three
whitespace-delimited words are removed adds no entry: the table is returned as it was. -/
theorem line_without_command_adds_nothing (m : Map_key_event) (line : Str)
    (h : ∀ x ∈ drop_word (drop_word (drop_word line)), x = ' ' ∨ x = '\t') :
    parse_config_line m line = m ∧ parse_config [line] m = m := by
  have hn := parse_entry_none_of_blank_rest line (fun x hx => (is_blank_iff x).mpr (h x hx))
  have : parse_config_line m line = m := by rw [parse_config_line_eq, hn]
  exact ⟨this, by simp [parse_config, this]⟩

/-- Witness for C10: the line `64 2 1` offered to a table that holds key 64. -/
theorem line_without_command_adds_nothing_witness :
    parse_config_line (table64 0 0) "64 2 1".toList = table64 0 0 ∧
    parse_config ["64 2 1".toList] (table64 0 0) = table64 0 0 :=
  line_without_command_adds_nothing (table64 0 0) "64 2 1".toList (by decide)

/-- C11: a line that is empty or made of spaces and tabs only, or whose first character
other than space and tab is `#`, adds no entry: the table is returned as it was, whatever
follows the `#`. -/
theorem blank_or_comment_line_ignored (m : Map_key_event) (line : Str)
    (h : (∀ x ∈ line, x = ' ' ∨ x = '\t') ∨
      ∃ b rest, (∀ x ∈ b, x = ' ' ∨ x = '\t') ∧ line = b ++ '#' :: rest) :
    parse_config_line m line = m ∧ parse_config [line] m = m := by
  have hn : parse_entry line = none := by
    rcases h with h | ⟨b, rest, hb, rfl⟩
    · apply parse_entry_none_of_blank_rest
      intro x hx
      have hsuf := (drop_word_suffix _).trans ((drop_word_suffix _).trans (drop_word_suffix line))
      exact (is_blank_iff x).mpr (h x (hsuf.subset hx))
    · have hd : (b ++ '#' :: rest).dropWhile is_blank = '#' :: rest :=
        dropWhile_blank_run b _ (fun x hx => (is_blank_iff x).mpr (hb x hx))
          (fun x hx => by
            simp only [List.head?_cons, Option.some.injEq] at hx
            rw [← hx]; decide)
      have hs : strip (b ++ '#' :: rest) = '#' :: rtrim rest := by
        rw [strip_eq, hd, if_neg (by simp), rtrim_cons_text _ _ (by decide)]
      unfold parse_entry
      simp [hs]
  have : parse_config_line m line = m := by rw [parse_config_line_eq, hn]
  exact ⟨this, by simp [parse_config, this]⟩

/-- Witness for C11: a comment line offered to a table that holds key 64. -/
theorem blank_or_comment_line_ignored_witness :
    parse_config_line (table64 0 0) "  # 64 2 1 echo hi".toList = table64 0 0 ∧
    parse_config ["  # 64 2 1 echo hi".toList] (table64 0 0) = table64 0 0 :=
  blank_or_comment_line_ignored (table64 0 0) "  # 64 2 1 echo hi".toList
    (Or.inr ⟨[' ', ' '], " 64 2 1 echo hi".toList, by decide, by decide⟩)

/-- C16, the failing input: `strip` returns a text of three spaces as it is, so the result
begins and ends with a space. -/
theorem strip_keeps_blank_text :
    strip [' ', ' ', ' '] = [' ', ' ', ' '] ∧
    (strip [' ', ' ', ' ']).head? = some ' ' ∧
    (strip [' ', ' ', ' ']).getLast? = some ' ' := by
  decide

/-- C17, counterexample: a key code field `12abc` loads as key 12, a rate-limit field `-1`
loads as 4294967295 seconds, and a flag field `1x` loads as fire on press; none of the three
texts is an unsigned decimal integer. -/
theorem malformed_number_not_zero :
    parse_config ["12abc 7 1 echo hi".toList] [] =
      [(12, ⟨7, true, false, 0, "echo hi".toList⟩)] ∧
    parse_config ["64 -1 1 echo hi".toList] [] =
      [(64, ⟨4294967295, true, false, 0, "echo hi".toList⟩)] ∧
    parse_config ["64 7 1x echo hi".toList] [] =
      [(64, ⟨7, true, false, 0, "echo hi".toList⟩)] := by
  decide

/-- C17, amended: in a line of three fields and a command, a key code field or rate-limit
field that holds no number (after leading white space and one optional sign it does not go
on with a decimal digit) loads as key code 0, respectively rate limit 0, and such a flag
field loads as fire on release; the line loads as exactly one entry with the command
verbatim. -/
theorem field_without_number_is_zero (w1 w2 w3 c b0 b1 b2 b3 b4 : Str)
    (hb0 : ∀ x ∈ b0, x = ' ' ∨ x = '\t') (hb1 : ∀ x ∈ b1, x = ' ' ∨ x = '\t')
    (hb2 : ∀ x ∈ b2, x = ' ' ∨ x = '\t') (hb3 : ∀ x ∈ b3, x = ' ' ∨ x = '\t')
    (hb4 : ∀ x ∈ b4, x = ' ' ∨ x = '\t')
    (hn1 : b1 ≠ []) (hn2 : b2 ≠ []) (hn3 : b3 ≠ [])
    (hw1 : ∀ x ∈ w1, x ≠ ' ' ∧ x ≠ '\t') (hw2 : ∀ x ∈ w2, x ≠ ' ' ∧ x ≠ '\t')
    (hw3 : ∀ x ∈ w3, x ≠ ' ' ∧ x ≠ '\t')
    (he1 : w1 ≠ []) (he2 : w2 ≠ []) (he3 : w3 ≠ []) (hhash : w1.head? ≠ some '#')
    (hc : c ≠ []) (hcf : ∀ x, c.head? = some x → x ≠ ' ' ∧ x ≠ '\t')
    (hcl : ∀ x, c.getLast? = some x → x ≠ ' ' ∧ x ≠ '\t') :
    ∃ key e, parse_config [b0 ++ w1 ++ b1 ++ w2 ++ b2 ++ w3 ++ b3 ++ c ++ b4] [] = [(key, e)] ∧
      e.exec = c ∧
      (lacks_number w1 = true → key = 0) ∧
      (lacks_number w2 = true → e.ratelimit_seconds = 0) ∧
      (lacks_number w3 = true → e.on_press = false) := by
  have blank_of : ∀ b : Str, (∀ x ∈ b, x = ' ' ∨ x = '\t') → ∀ x ∈ b, is_blank x = true :=
    fun b hb x hx => (is_blank_iff x).mpr (hb x hx)
  have text_of : ∀ w : Str, (∀ x ∈ w, x ≠ ' ' ∧ x ≠ '\t') → ∀ x ∈ w, is_blank x = false :=
    fun w hw x hx => (not_blank_iff x).mpr (hw x hx)
  have he := parse_entry_fields b0 w1 b1 w2 b2 w3 b3 c b4
    (blank_of b0 hb0) (blank_of b1 hb1) (blank_of b2 hb2) (blank_of b3 hb3) (blank_of b4 hb4)
    hn1 hn2 hn3 (text_of w1 hw1) (text_of w2 hw2) (text_of w3 hw3) he1 he2 he3 hhash hc
    (fun x hx => (not_blank_iff x).mpr (hcf x hx))
    (fun x hx => (not_blank_iff x).mpr (hcl x hx))
  refine ⟨to_unsigned (strtoul (c_str w1)),
    ⟨to_unsigned (strtoul (c_str w2)), decide (strtoul (c_str w3) ≠ 0), false, 0, c⟩,
    ?_, rfl, ?_, ?_, ?_⟩
  · simp only [parse_config, List.foldl_cons, List.foldl_nil, List.append_assoc]
    rw [parse_config_line_eq, he]
    simp only [map_insert, map_find, map_place]
  · intro h
    simp [strtoul_lacks_number w1 h, to_unsigned]
  · intro h
    simp [strtoul_lacks_number w2 h, to_unsigned]
  · intro h
    simp [strtoul_lacks_number w3 h]

/-- Witness for C17 (amended): the line `abc x7 -z echo hi`. -/
theorem field_without_number_is_zero_witness :
    ∃ key e, parse_config ["abc x7 -z echo hi".toList] [] = [(key, e)] ∧
      e.exec = "echo hi".toList ∧
      (lacks_number "abc".toList = true → key = 0) ∧
      (lacks_number "x7".toList = true → e.ratelimit_seconds = 0) ∧
      (lacks_number "-z".toList = true → e.on_press = false) :=
  field_without_number_is_zero "abc".toList "x7".toList "-z".toList "echo hi".toList
    [] [' '] [' '] [' '] []
    (by decide) (by decide) (by decide) (by decide) (by decide) (by decide) (by decide)
    (by decide) (by decide) (by decide) (by decide) (by decide) (by decide) (by decide)
    (by decide) (by decide) (by decide) (by decide)

/-- C20: every entry of the table loaded from any sequence of config lines has a non-empty
command whose first and last characters are neither space nor tab, and the stored level
released. -/
theorem loaded_command_shape (lines : List Str) (p : Nat × Event)
    (hp : p ∈ parse_config lines []) :
    p.2.exec ≠ [] ∧ (∀ x, p.2.exec.head? = some x → x ≠ ' ' ∧ x ≠ '\t') ∧
      (∀ x, p.2.exec.getLast? = some x → x ≠ ' ' ∧ x ≠ '\t') ∧ p.2.pressed = false := by
  obtain ⟨h1, h2, h3, h4⟩ := parse_config_shape lines [] (by simp) p hp
  exact ⟨h1, fun x hx => (not_blank_iff x).mp (h2 x hx),
    fun x hx => (not_blank_iff x).mp (h3 x hx), h4⟩

/-- Witness for C20: the entry loaded from a line with blanks around every field. -/
theorem loaded_command_shape_witness :
    "echo  hi".toList ≠ [] ∧
    (∀ x, "echo  hi".toList.head? = some x → x ≠ ' ' ∧ x ≠ '\t') ∧
    (∀ x, "echo  hi".toList.getLast? = some x → x ≠ ' ' ∧ x ≠ '\t') ∧
    (⟨2, true, false, 0, "echo  hi".toList⟩ : Event).pressed = false :=
  loaded_command_shape ["  64 2 1   echo  hi \t".toList]
    (64, ⟨2, true, false, 0, "echo  hi".toList⟩) (by decide)

end Keyevt
